import Mathlib

/-!
Verification of the smoothed-aggregation algebraic-multigrid preconditioner
implemented in `cusp/precond/detail/smoothed_aggregation.inl`.

The sparse matrices of the source are COO (coordinate-format) matrices: a
row-index array, a column-index array and a value array, together with the
stored dimensions.  We embed them as a structure holding the dimensions and a
single list of `(row, col, value)` triples; the index type of the source is a
signed integer type, so indices are `ℤ`.  Scalar values live in a generic
linear ordered field, instantiated with `ℚ` or `ℝ` in concrete statements;
floating-point rounding is outside the model, arithmetic is exact.

External collaborators of the file under verification (sorting, sparse
multiply, transpose, strength of connection, aggregation, spectral-radius
estimation, the relaxation smoother, the dense LU solver and the convergence
monitor) are not part of the repository; they are modelled from the spec's
contracts, as marked in the individual doc comments.
-/

namespace SmoothedAggregation

/-- One COO entry: `(row index, column index, value)`. -/
abbrev Entry (F : Type) := ℤ × ℤ × F

/-- The `(row, col)` sort key of a COO entry. -/
def entryKey {F : Type} (e : Entry F) : ℤ × ℤ := (e.1, e.2.1)

/-- Lexicographic `(row, col)` order used by `sort_by_row_and_column`. -/
def keyLe (a b : ℤ × ℤ) : Prop := a.1 < b.1 ∨ (a.1 = b.1 ∧ a.2 ≤ b.2)

/-- Strict lexicographic `(row, col)` order. -/
def keyLt (a b : ℤ × ℤ) : Prop := a.1 < b.1 ∨ (a.1 = b.1 ∧ a.2 < b.2)

instance (a b : ℤ × ℤ) : Decidable (keyLe a b) := by unfold keyLe; infer_instance

instance (a b : ℤ × ℤ) : Decidable (keyLt a b) := by unfold keyLt; infer_instance

theorem keyLe_refl (a : ℤ × ℤ) : keyLe a a := by unfold keyLe; omega

theorem keyLe_total (a b : ℤ × ℤ) : keyLe a b ∨ keyLe b a := by unfold keyLe; omega

theorem keyLe_trans {a b c : ℤ × ℤ} (h1 : keyLe a b) (h2 : keyLe b c) : keyLe a c := by
  unfold keyLe at *; omega

theorem keyLt_of_keyLe_of_ne {a b : ℤ × ℤ} (h1 : keyLe a b) (h2 : a ≠ b) : keyLt a b := by
  unfold keyLe at h1; unfold keyLt
  rcases a with ⟨a1, a2⟩; rcases b with ⟨b1, b2⟩
  simp only [Prod.mk.injEq, ne_eq, not_and] at h2 ⊢
  by_cases h : a1 = b1
  · subst h; rcases h1 with h1 | h1 <;> [omega; · exact Or.inr ⟨rfl, lt_of_le_of_ne h1.2 (h2 rfl)⟩]
  · rcases h1 with h1 | h1 <;> [exact Or.inl h1; exact absurd h1.1 h]

theorem keyLt_of_keyLt_of_keyLe {a b c : ℤ × ℤ} (h1 : keyLt a b) (h2 : keyLe b c) :
    keyLt a c := by unfold keyLt at *; unfold keyLe at h2; omega

theorem keyLt_ne {a b : ℤ × ℤ} (h : keyLt a b) : a ≠ b := by
  unfold keyLt at h; intro he; subst he; omega

/-- `Modelled from the spec:` the `sort_by_row_and_column` primitive of the
sparse-matrix library (external to the repository): sort COO entries by their
`(row, col)` key.  Implemented as an insertion sort; the spec constrains only
the key order of the result.  Insertion step. -/
def insertEntry {F : Type} (e : Entry F) : List (Entry F) → List (Entry F)
  | [] => [e]
  | f :: rest =>
      if keyLe (entryKey e) (entryKey f) then e :: f :: rest else f :: insertEntry e rest

/-- `Modelled from the spec:` sort COO entries by `(row, col)`. -/
def sortEntries {F : Type} : List (Entry F) → List (Entry F)
  | [] => []
  | e :: rest => insertEntry e (sortEntries rest)

theorem insertEntry_perm {F : Type} (e : Entry F) (l : List (Entry F)) :
    List.Perm (insertEntry e l) (e :: l) := by
  induction l with
  | nil => simp [insertEntry]
  | cons f rest ih =>
      by_cases h : keyLe (entryKey e) (entryKey f)
      · simp [insertEntry, h]
      · simp only [insertEntry, h, if_false]
        exact ((ih.cons f).trans (List.Perm.swap e f rest))

theorem sortEntries_perm {F : Type} (l : List (Entry F)) : List.Perm (sortEntries l) l := by
  induction l with
  | nil => simp [sortEntries]
  | cons e rest ih => exact (insertEntry_perm e (sortEntries rest)).trans (ih.cons e)

/-- The entry-wise order used for sortedness statements. -/
def entryLe {F : Type} (a b : Entry F) : Prop := keyLe (entryKey a) (entryKey b)

theorem insertEntry_pairwise {F : Type} {e : Entry F} {l : List (Entry F)}
    (h : l.Pairwise entryLe) : (insertEntry e l).Pairwise entryLe := by
  induction l with
  | nil => simp [insertEntry, List.Pairwise]
  | cons f rest ih =>
      rcases List.pairwise_cons.mp h with ⟨hf, hrest⟩
      by_cases hle : keyLe (entryKey e) (entryKey f)
      · simp only [insertEntry, hle, if_true]
        refine List.pairwise_cons.mpr ⟨?_, h⟩
        intro g hg
        rcases List.mem_cons.mp hg with rfl | hg2
        · exact hle
        · exact keyLe_trans hle (hf g hg2)
      · have hfe : keyLe (entryKey f) (entryKey e) :=
          (keyLe_total (entryKey e) (entryKey f)).resolve_left hle
        simp only [insertEntry, hle, if_false]
        refine List.pairwise_cons.mpr ⟨?_, ih hrest⟩
        intro g hg
        rcases List.mem_cons.mp ((insertEntry_perm e rest).mem_iff.mp hg) with rfl | hg2
        · exact hfe
        · exact hf g hg2

theorem sortEntries_pairwise {F : Type} (l : List (Entry F)) :
    (sortEntries l).Pairwise entryLe := by
  induction l with
  | nil => simp [sortEntries, List.Pairwise]
  | cons e rest ih => exact insertEntry_pairwise ih

/-- `Modelled from the spec:` the `reduce_by_key` deduplication primitive
(external): merge runs of entries sharing a `(row, col)` key by summing their
values. -/
def reduceByKey {F : Type} [Add F] : List (Entry F) → List (Entry F)
  | [] => []
  | [e] => [e]
  | e :: f :: rest =>
      if entryKey e = entryKey f then reduceByKey ((e.1, e.2.1, e.2.2 + f.2.2) :: rest)
      else e :: reduceByKey (f :: rest)
termination_by l => l.length

/-- Value of the (possibly duplicated) COO entry list at position `(r, c)`:
the sum of the stored values with that key. -/
def evalList {F : Type} [AddCommMonoid F] (l : List (Entry F)) (r c : ℤ) : F :=
  (l.map (fun e => if e.1 = r ∧ e.2.1 = c then e.2.2 else 0)).sum

theorem evalList_nil {F : Type} [AddCommMonoid F] (r c : ℤ) :
    evalList ([] : List (Entry F)) r c = 0 := rfl

theorem evalList_cons {F : Type} [AddCommMonoid F] (e : Entry F) (l : List (Entry F)) (r c : ℤ) :
    evalList (e :: l) r c = (if e.1 = r ∧ e.2.1 = c then e.2.2 else 0) + evalList l r c := by
  simp [evalList]

theorem evalList_append {F : Type} [AddCommMonoid F] (l₁ l₂ : List (Entry F)) (r c : ℤ) :
    evalList (l₁ ++ l₂) r c = evalList l₁ r c + evalList l₂ r c := by
  simp [evalList]

theorem evalList_perm {F : Type} [AddCommMonoid F] {l₁ l₂ : List (Entry F)}
    (h : List.Perm l₁ l₂) (r c : ℤ) : evalList l₁ r c = evalList l₂ r c :=
  (h.map _).sum_eq

theorem evalList_sortEntries {F : Type} [AddCommMonoid F] (l : List (Entry F)) (r c : ℤ) :
    evalList (sortEntries l) r c = evalList l r c :=
  evalList_perm (sortEntries_perm l) r c

theorem evalList_reduceByKey {F : Type} [AddCommMonoid F] (l : List (Entry F)) (r c : ℤ) :
    evalList (reduceByKey l) r c = evalList l r c := by
  induction l using reduceByKey.induct with
  | case1 => rw [reduceByKey]
  | case2 e => rw [reduceByKey]
  | case3 e f rest h ih =>
      have hkey : (e.1 = r ∧ e.2.1 = c) ↔ (f.1 = r ∧ f.2.1 = c) := by
        simp only [entryKey, Prod.ext_iff] at h
        rw [h.1, h.2]
      rw [reduceByKey, if_pos h, ih]
      simp only [evalList_cons]
      by_cases hc : e.1 = r ∧ e.2.1 = c
      · rw [if_pos hc, if_pos hc, if_pos (hkey.mp hc)]; rw [add_assoc]
      · rw [if_neg hc, if_neg hc, if_neg (fun hfc => hc (hkey.mpr hfc))]; simp
  | case4 e f rest h ih =>
      rw [reduceByKey, if_neg h, evalList_cons, evalList_cons, ih]

/-- Strict entry-wise key order. -/
def entryLt {F : Type} (a b : Entry F) : Prop := keyLt (entryKey a) (entryKey b)

theorem reduceByKey_keys_subset {F : Type} [Add F] (l : List (Entry F)) :
    ∀ g ∈ reduceByKey l, entryKey g ∈ l.map entryKey := by
  induction l using reduceByKey.induct with
  | case1 => intro g hg; rw [reduceByKey] at hg; cases hg
  | case2 e => intro g hg; rw [reduceByKey] at hg; simpa using congrArg entryKey (List.mem_singleton.mp hg)
  | case3 e f rest h ih =>
      intro g hg
      rw [reduceByKey, if_pos h] at hg
      have := ih g hg
      simp only [List.map_cons, List.mem_cons] at this ⊢
      rcases this with h1 | h1
      · exact Or.inl (h1.trans rfl)
      · exact Or.inr (Or.inr h1)
  | case4 e f rest h ih =>
      intro g hg
      rw [reduceByKey, if_neg h] at hg
      rcases List.mem_cons.mp hg with rfl | hg2
      · simp
      · have := ih g hg2
        simp only [List.map_cons, List.mem_cons] at this ⊢
        tauto

theorem reduceByKey_pairwise {F : Type} [Add F] {l : List (Entry F)}
    (h : l.Pairwise entryLe) : (reduceByKey l).Pairwise entryLt := by
  induction l using reduceByKey.induct with
  | case1 => rw [reduceByKey]; exact List.Pairwise.nil
  | case2 e => rw [reduceByKey]; simp [List.Pairwise]
  | case3 e f rest hk ih =>
      rw [reduceByKey, if_pos hk]
      apply ih
      rcases List.pairwise_cons.mp h with ⟨he, h2⟩
      rcases List.pairwise_cons.mp h2 with ⟨_, h3⟩
      refine List.pairwise_cons.mpr ⟨?_, h3⟩
      intro g hg
      exact he g (List.mem_cons_of_mem f hg)
  | case4 e f rest hk ih =>
      rw [reduceByKey, if_neg hk]
      rcases List.pairwise_cons.mp h with ⟨he, h2⟩
      have hef : keyLt (entryKey e) (entryKey f) :=
        keyLt_of_keyLe_of_ne (he f (List.mem_cons_self f rest)) hk
      refine List.pairwise_cons.mpr ⟨?_, ih h2⟩
      intro g hg
      have hkey := reduceByKey_keys_subset (f :: rest) g hg
      simp only [List.map_cons, List.mem_cons] at hkey
      rcases hkey with h1 | h1
      · unfold entryLt; rw [h1]; exact hef
      · rcases List.mem_map.mp h1 with ⟨g', hg', hgk⟩
        have hfg : keyLe (entryKey f) (entryKey g') :=
          (List.pairwise_cons.mp h2).1 g' hg'
        unfold entryLt; rw [← hgk]
        exact keyLt_of_keyLt_of_keyLe hef hfg

/-- `Modelled from the spec:` the sort-then-sum-reduce deduplication pipeline
used by the sparse primitives: sort by `(row, col)`, then merge equal keys by
summing. -/
def sortReduce {F : Type} [Add F] (l : List (Entry F)) : List (Entry F) :=
  reduceByKey (sortEntries l)

theorem evalList_sortReduce {F : Type} [AddCommMonoid F] (l : List (Entry F)) (r c : ℤ) :
    evalList (sortReduce l) r c = evalList l r c := by
  rw [sortReduce, evalList_reduceByKey, evalList_sortEntries]

theorem sortReduce_pairwise {F : Type} [AddCommMonoid F] (l : List (Entry F)) :
    (sortReduce l).Pairwise entryLt :=
  reduceByKey_pairwise (sortEntries_pairwise l)

theorem sortReduce_keys_subset {F : Type} [AddCommMonoid F] (l : List (Entry F)) :
    ∀ g ∈ sortReduce l, entryKey g ∈ l.map entryKey := by
  intro g hg
  have := reduceByKey_keys_subset (sortEntries l) g hg
  exact ((sortEntries_perm l).map entryKey).mem_iff.mp this

/-- A COO sparse matrix: stored dimensions and the entry list.  The stored
entry count `num_entries` of the source is `entries.length`. -/
structure Coo (F : Type) where
  num_rows : ℕ
  num_cols : ℕ
  entries : List (Entry F)
deriving DecidableEq

/-- The matrix a COO container represents: sum of stored values at `(r, c)`. -/
def Coo.eval {F : Type} [AddCommMonoid F] (M : Coo F) (r c : ℤ) : F :=
  evalList M.entries r c

/-- Index bounds for a key. -/
def WfKey (k : ℤ × ℤ) (rows cols : ℕ) : Prop :=
  0 ≤ k.1 ∧ k.1 < (rows : ℤ) ∧ 0 ≤ k.2 ∧ k.2 < (cols : ℤ)

/-- All entry indices are inside the stored dimensions. -/
def Coo.Wf {F : Type} (M : Coo F) : Prop :=
  ∀ e ∈ M.entries, WfKey (entryKey e) M.num_rows M.num_cols

instance (k : ℤ × ℤ) (r c : ℕ) : Decidable (WfKey k r c) := by
  unfold WfKey; infer_instance

instance {F : Type} (M : Coo F) : Decidable M.Wf := by
  unfold Coo.Wf; infer_instance

/-- `eval` vanishes on out-of-range column indices of a well-formed matrix. -/
theorem Coo.eval_of_ge_cols {F : Type} [AddCommMonoid F] {M : Coo F} (h : M.Wf) {r c : ℤ}
    (hc : ¬(0 ≤ c ∧ c < (M.num_cols : ℤ))) : M.eval r c = 0 := by
  unfold Coo.eval evalList
  rw [List.sum_eq_zero]
  intro x hx
  rcases List.mem_map.mp hx with ⟨e, he, rfl⟩
  have hw := h e he
  rw [if_neg]
  rintro ⟨-, h2⟩
  exact hc ⟨h2 ▸ hw.2.2.1, h2 ▸ hw.2.2.2⟩


/-- Swap the row and column index of an entry. -/
def swapEntry {F : Type} (e : Entry F) : Entry F := (e.2.1, e.1, e.2.2)

/-- `Modelled from the spec:` `cusp::transpose` (external sparse primitive):
swap the index arrays and re-sort the entries by the new row.  The source
repository uses it for `R = transpose(P)` and inside `fit_candidates`. -/
def transpose {F : Type} (M : Coo F) : Coo F :=
  ⟨M.num_cols, M.num_rows, sortEntries (M.entries.map swapEntry)⟩

theorem evalList_map_swap {F : Type} [AddCommMonoid F] (l : List (Entry F)) (r c : ℤ) :
    evalList (l.map swapEntry) r c = evalList l c r := by
  induction l with
  | nil => rfl
  | cons e rest ih =>
      rw [List.map_cons, evalList_cons, evalList_cons, ih]
      congr 1
      simp only [swapEntry]
      by_cases h : e.1 = c ∧ e.2.1 = r
      · rw [if_pos ⟨h.2, h.1⟩, if_pos h]
      · rw [if_neg fun hs => h ⟨hs.2, hs.1⟩, if_neg h]

theorem transpose_eval {F : Type} [AddCommMonoid F] (M : Coo F) (r c : ℤ) :
    (transpose M).eval r c = M.eval c r := by
  unfold transpose Coo.eval
  rw [evalList_sortEntries, evalList_map_swap]

theorem transpose_wf {F : Type} {M : Coo F} (h : M.Wf) : (transpose M).Wf := by
  intro e he
  have hmem : e ∈ M.entries.map swapEntry :=
    (sortEntries_perm (M.entries.map swapEntry)).mem_iff.mp he
  rcases List.mem_map.mp hmem with ⟨f, hf, rfl⟩
  have hw := h f hf
  exact ⟨hw.2.2.1, hw.2.2.2, hw.1, hw.2.1⟩

/-- `Modelled from the spec:` raw product entries of the sparse-sparse multiply
`cusp::multiply` (external): one candidate entry `(i, k, v·w)` for every pair
of entries `(i, j, v)` of the left factor and `(j, k, w)` of the right. -/
def mulEntries {F : Type} [Mul F] (xs ys : List (Entry F)) : List (Entry F) :=
  xs.foldr (fun e acc =>
    (ys.filterMap fun f =>
      if e.2.1 = f.1 then some (e.1, f.2.1, e.2.2 * f.2.2) else none) ++ acc) []

/-- `Modelled from the spec:` `cusp::multiply` for two sparse matrices
(external primitive, "sparse×sparse multiply" with deduplicate-and-sum): all
pairwise products, sorted by `(row, col)` and sum-reduced. -/
def cooMul {F : Type} [Add F] [Mul F] (X Y : Coo F) : Coo F :=
  ⟨X.num_rows, Y.num_cols, sortReduce (mulEntries X.entries Y.entries)⟩

theorem evalList_block {F : Type} [NonUnitalNonAssocSemiring F] (e : Entry F)
    (ys : List (Entry F)) (r c : ℤ) :
    evalList (ys.filterMap fun f =>
        if e.2.1 = f.1 then some (e.1, f.2.1, e.2.2 * f.2.2) else none) r c
      = if e.1 = r then e.2.2 * evalList ys e.2.1 c else 0 := by
  induction ys with
  | nil =>
      simp only [List.filterMap_nil, evalList_nil]
      by_cases h : e.1 = r
      · rw [if_pos h, mul_zero]
      · rw [if_neg h]
  | cons f rest ih =>
      rw [List.filterMap_cons]
      by_cases hj : e.2.1 = f.1
      · rw [if_pos hj, evalList_cons, ih, evalList_cons]
        by_cases hr : e.1 = r
        · rw [if_pos hr, if_pos hr, mul_add]
          congr 1
          by_cases hc : f.2.1 = c
          · rw [if_pos ⟨hr, hc⟩, if_pos ⟨hj.symm, hc⟩]
          · rw [if_neg fun hx => hc hx.2, if_neg fun hx => hc hx.2, mul_zero]
        · rw [if_neg hr, if_neg hr, if_neg fun hx => hr hx.1, add_zero]
      · rw [if_neg hj, ih, evalList_cons]
        by_cases hr : e.1 = r
        · rw [if_pos hr, if_pos hr, if_neg fun hx => hj hx.1.symm, zero_add]
        · rw [if_neg hr, if_neg hr]

theorem evalList_mulEntries {F : Type} [NonUnitalNonAssocSemiring F] {n : ℕ}
    (xs ys : List (Entry F)) (hb : ∀ e ∈ xs, 0 ≤ e.2.1 ∧ e.2.1 < (n : ℤ)) (r c : ℤ) :
    evalList (mulEntries xs ys) r c
      = ∑ j ∈ Finset.Ico (0 : ℤ) (n : ℤ), evalList xs r j * evalList ys j c := by
  induction xs with
  | nil => simp [mulEntries, evalList_nil]
  | cons e rest ih =>
      have hrest : ∀ f ∈ rest, 0 ≤ f.2.1 ∧ f.2.1 < (n : ℤ) :=
        fun f hf => hb f (List.mem_cons_of_mem e hf)
      have he : e.2.1 ∈ Finset.Ico (0 : ℤ) (n : ℤ) := by
        have := hb e (List.mem_cons_self e rest)
        rw [Finset.mem_Ico]; exact this
      have hme : mulEntries (e :: rest) ys
          = (ys.filterMap fun f =>
              if e.2.1 = f.1 then some (e.1, f.2.1, e.2.2 * f.2.2) else none)
            ++ mulEntries rest ys := rfl
      rw [hme, evalList_append, evalList_block, ih hrest]
      have hsplit : ∀ j : ℤ, evalList (e :: rest) r j * evalList ys j c
          = (if e.1 = r ∧ e.2.1 = j then e.2.2 else 0) * evalList ys j c
            + evalList rest r j * evalList ys j c := by
        intro j; rw [evalList_cons, add_mul]
      rw [Finset.sum_congr rfl fun j _ => hsplit j, Finset.sum_add_distrib]
      congr 1
      by_cases hr : e.1 = r
      · rw [if_pos hr]
        have : ∀ j ∈ Finset.Ico (0 : ℤ) (n : ℤ),
            (if e.1 = r ∧ e.2.1 = j then e.2.2 else 0) * evalList ys j c
              = if e.2.1 = j then e.2.2 * evalList ys j c else 0 := by
          intro j _
          by_cases hj : e.2.1 = j
          · rw [if_pos ⟨hr, hj⟩, if_pos hj]
          · rw [if_neg fun hx => hj hx.2, if_neg hj, zero_mul]
        rw [Finset.sum_congr rfl this, Finset.sum_ite_eq, if_pos he]
      · rw [if_neg hr, eq_comm]
        apply Finset.sum_eq_zero
        intro j _
        rw [if_neg fun hx => hr hx.1, zero_mul]

theorem cooMul_eval {F : Type} [NonUnitalNonAssocSemiring F] (X Y : Coo F) (hX : X.Wf)
    (r c : ℤ) : (cooMul X Y).eval r c
      = ∑ j ∈ Finset.Ico (0 : ℤ) (X.num_cols : ℤ), X.eval r j * Y.eval j c := by
  unfold cooMul Coo.eval
  rw [evalList_sortReduce]
  exact evalList_mulEntries X.entries Y.entries (fun e he => (hX e he).2.2) r c

theorem mulEntries_keys {F : Type} [Mul F] (xs ys : List (Entry F)) :
    ∀ g ∈ mulEntries xs ys, ∃ e ∈ xs, ∃ f ∈ ys, g.1 = e.1 ∧ g.2.1 = f.2.1 := by
  induction xs with
  | nil => intro g hg; cases hg
  | cons e rest ih =>
      intro g hg
      have hme : mulEntries (e :: rest) ys
          = (ys.filterMap fun f =>
              if e.2.1 = f.1 then some (e.1, f.2.1, e.2.2 * f.2.2) else none)
            ++ mulEntries rest ys := rfl
      rw [hme] at hg
      rcases List.mem_append.mp hg with hg | hg
      · rcases List.mem_filterMap.mp hg with ⟨f, hf, hsome⟩
        by_cases hj : e.2.1 = f.1
        · rw [if_pos hj] at hsome
          have := Option.some.inj hsome
          exact ⟨e, List.mem_cons_self e rest, f, hf, by rw [← this], by rw [← this]⟩
        · rw [if_neg hj] at hsome; cases hsome
      · obtain ⟨e', he', f, hf, h1, h2⟩ := ih g hg
        exact ⟨e', List.mem_cons_of_mem e he', f, hf, h1, h2⟩

theorem cooMul_wf {F : Type} [AddCommMonoid F] [Mul F] {X Y : Coo F} (hX : X.Wf) (hY : Y.Wf) :
    (cooMul X Y).Wf := by
  intro g hg
  have hkey := sortReduce_keys_subset _ g hg
  rcases List.mem_map.mp hkey with ⟨g', hg', hk⟩
  obtain ⟨e, he, f, hf, h1, h2⟩ := mulEntries_keys _ _ g' hg'
  have hk1 : g'.1 = g.1 := (Prod.ext_iff.mp hk).1
  have hk2 : g'.2.1 = g.2.1 := (Prod.ext_iff.mp hk).2
  have hrow := (hX e he).1
  have hrow2 := (hX e he).2.1
  have hcol := (hY f hf).2.2
  refine ⟨?_, ?_, ?_, ?_⟩
  · show (0 : ℤ) ≤ g.1; rw [← hk1, h1]; exact hrow
  · show g.1 < ((cooMul X Y).num_rows : ℤ); rw [← hk1, h1]; exact hrow2
  · show (0 : ℤ) ≤ g.2.1; rw [← hk2, h2]; exact hcol.1
  · show g.2.1 < ((cooMul X Y).num_cols : ℤ); rw [← hk2, h2]; exact hcol.2

/-- Entry keys are pairwise distinct (at most one stored entry per
`(row, col)` position). -/
def KeysDistinct {F : Type} (l : List (Entry F)) : Prop :=
  l.Pairwise fun a b => entryKey a ≠ entryKey b

instance {F : Type} (l : List (Entry F)) : Decidable (KeysDistinct l) := by
  unfold KeysDistinct; infer_instance

theorem sortReduce_keysDistinct {F : Type} [AddCommMonoid F] (l : List (Entry F)) :
    KeysDistinct (sortReduce l) :=
  (sortReduce_pairwise l).imp fun h => keyLt_ne h

theorem evalList_eq_zero_of_no_match {F : Type} [AddCommMonoid F] {l : List (Entry F)}
    {r c : ℤ} (h : ∀ e ∈ l, ¬(e.1 = r ∧ e.2.1 = c)) : evalList l r c = 0 := by
  unfold evalList
  rw [List.sum_eq_zero]
  intro x hx
  rcases List.mem_map.mp hx with ⟨e, he, rfl⟩
  rw [if_neg (h e he)]

/-- `Modelled from the spec:` `cusp::detail::extract_diagonal` (external):
the value stored at the diagonal position of each row; with duplicate diagonal
entries the last stored one wins (scatter semantics), a missing diagonal reads
as `0` (zero-initialised destination array). -/
def diagEntry {F : Type} [Zero F] (M : Coo F) (i : ℤ) : F :=
  ((M.entries.filter fun e => decide (e.1 = i ∧ e.2.1 = i)).map fun e => e.2.2).getLast?.getD 0

theorem diagList_eval {F : Type} [AddCommMonoid F] {l : List (Entry F)}
    (h : KeysDistinct l) (i : ℤ) :
    ((l.filter fun e => decide (e.1 = i ∧ e.2.1 = i)).map fun e => e.2.2).getLast?.getD 0
      = evalList l i i := by
  induction l with
  | nil => rfl
  | cons e rest ih =>
      rcases List.pairwise_cons.mp h with ⟨he, hrest⟩
      rw [evalList_cons]
      by_cases hm : e.1 = i ∧ e.2.1 = i
      · have hkey : entryKey e = (i, i) := by
          unfold entryKey; rw [hm.1, hm.2]
        have hnone : ∀ f ∈ rest, ¬(f.1 = i ∧ f.2.1 = i) := by
          intro f hf hfm
          exact he f hf (hkey.trans (by unfold entryKey; rw [hfm.1, hfm.2]))
        have hfilter : rest.filter (fun e => decide (e.1 = i ∧ e.2.1 = i)) = [] := by
          rw [List.filter_eq_nil_iff]
          intro f hf
          simpa using hnone f hf
        rw [List.filter_cons_of_pos (by simpa using hm), hfilter, if_pos hm,
            evalList_eq_zero_of_no_match hnone, add_zero]
        rfl
      · rw [List.filter_cons_of_neg (by simpa using hm), if_neg hm, zero_add]
        exact ih hrest

theorem diagEntry_eval {F : Type} [AddCommMonoid F] {M : Coo F}
    (h : KeysDistinct M.entries) (i : ℤ) : diagEntry M i = M.eval i i :=
  diagList_eval h i

/-- `Modelled from the spec:` `cusp::multiply` of a sparse operator and a dense
vector (external primitive): `y[r] = Σ over the entries (r, c, v) of v·x[c]`,
one output element per row. -/
def mulVec {F : Type} [NonUnitalNonAssocSemiring F] (M : Coo F) (x : List F) : List F :=
  (List.range M.num_rows).map fun r : ℕ =>
    (M.entries.map fun e => if e.1 = (r : ℤ) then e.2.2 * x.getD e.2.1.toNat 0 else 0).sum

/-- `cusp::blas::axpby(a, b, out, 1, -1)`: elementwise difference `a - b`. -/
def vsub {F : Type} [Sub F] (a b : List F) : List F := List.zipWith (fun p q => p - q) a b

/-- `cusp::blas::axpy(u, x, 1)`: elementwise sum `x + u`. -/
def vadd {F : Type} [Add F] (a b : List F) : List F := List.zipWith (fun p q => p + q) a b

/-- `*thrust::max_element(l.begin(), l.end())`: the maximum of the aggregate-id
array (the source dereferences the iterator directly, so the array is assumed
nonempty; the empty list returns the default `0`). -/
def listMax (l : List ℤ) : ℤ := l.foldl max (l.headD 0)

/-- Zero-padded destination buffer of length `m`: `resize(m)` produces zeros,
the first `l.length` slots are overwritten by the scattered values, writes past
the end are lost. -/
def padTrunc {F : Type} [Zero F] (m : ℕ) (l : List F) : List F :=
  (l ++ List.replicate (m - l.length) 0).take m

/-- `fit_candidates(aggregates, B, Q, R)` (smoothed_aggregation.inl:88-130):
builds the tentative prolongator `Q` with one entry per fine row — row `i`,
column `aggregates[i]`, value `B[i]` — then computes per-aggregate norms into
`R` by transposing `Q`, sum-reducing the squared values by row of the
transpose, and taking square roots, and finally divides every value of `Q` by
the norm of its column.  `sqrtFn` stands for the C `sqrt` applied by
`sqrt_functor`.  Negative aggregate ids (the unhandled `-1` markers of
unaggregated rows, see the source TODO at line 98) flow through unchecked and
become negative column indices of `Q`; the destination `R` is sized
`max(aggregates)+1`, writes past its end are lost and unwritten slots stay
zero. -/
def fit_candidates {F : Type} [LinearOrderedField F] (sqrtFn : F → F)
    (aggregates : List ℤ) (B : List F) : Coo F × List F :=
  let num_aggregates : ℤ := listMax aggregates + 1
  let n := aggregates.length
  let Q0 : Coo F := ⟨n, num_aggregates.toNat,
    (List.range n).map fun i : ℕ => ((i : ℤ), aggregates.getD i 0, B.getD i 0)⟩
  let Qt := transpose Q0
  let sums := reduceByKey (Qt.entries.map fun e => (e.1, (0 : ℤ), e.2.2 * e.2.2))
  let R : List F := (padTrunc num_aggregates.toNat (sums.map fun e => e.2.2)).map sqrtFn
  let Q : Coo F := ⟨n, num_aggregates.toNat,
    Q0.entries.map fun e => (e.1, e.2.1, e.2.2 / R.getD e.2.1.toNat 0)⟩
  (Q, R)

/-- `smooth_prolongator(S, T, P, omega, rho_Dinv_S)`
(smoothed_aggregation.inl:136-205): computes `P = (I - (omega/rho) D⁻¹ S) T`.
For the k-th entry `(i, j, v)` of `S` a candidate entry is produced
positionally — row `i`, column `T.column_indices[j]`, value
`((v * T.values[j]) * (-lambda)) / D[i]` — then `T`'s entries are appended
unchanged and the whole list is sorted by `(row, col)` and sum-reduced.
`rhoEstimate` stands for the value of the external spectral-radius estimate
`estimate_rho_Dinv_A(S)` that the source computes lazily when `rho == 0`. -/
def smooth_prolongator {F : Type} [LinearOrderedField F] (S T : Coo F)
    (omega rho rhoEstimate : F) : Coo F :=
  let lambda := omega / (if rho = 0 then rhoEstimate else rho)
  let Tcols := T.entries.map fun e => e.2.1
  let Tvals := T.entries.map fun e => e.2.2
  let Spart : List (Entry F) := S.entries.map fun e =>
    (e.1, Tcols.getD e.2.1.toNat 0,
      ((e.2.2 * Tvals.getD e.2.1.toNat 0) * (-lambda)) / diagEntry S e.1)
  ⟨S.num_rows, T.num_cols, sortReduce (Spart ++ T.entries)⟩

theorem getD_map_lt {α β : Type} (f : α → β) (l : List α) (j : ℕ) (hj : j < l.length)
    (d : β) : (l.map f).getD j d = f (l.get ⟨j, hj⟩) := by
  rw [List.getD_eq_getElem?_getD, List.getElem?_map, List.getElem?_eq_getElem hj]
  rfl

theorem evalList_rangeMap {F : Type} [AddCommMonoid F] (cols : ℕ → ℤ) (vals : ℕ → F)
    (n : ℕ) (k c : ℤ) :
    evalList ((List.range n).map fun j : ℕ => ((j : ℤ), cols j, vals j)) k c
      = if 0 ≤ k ∧ k < (n : ℤ) ∧ cols k.toNat = c then vals k.toNat else 0 := by
  induction n with
  | zero =>
      rw [List.range_zero, List.map_nil, evalList_nil, if_neg]
      rintro ⟨h1, h2, -⟩; omega
  | succ n ih =>
      rw [List.range_succ, List.map_append, evalList_append, ih, List.map_singleton]
      have hsingle : evalList [((n : ℤ), cols n, vals n)] k c
          = if (n : ℤ) = k ∧ cols n = c then vals n else 0 := by
        rw [evalList_cons, evalList_nil, add_zero]
      rw [hsingle]
      by_cases hk : (n : ℤ) = k
      · have hnat : k.toNat = n := by omega
        rw [if_neg (by omega), zero_add, hnat]
        by_cases hc : cols n = c
        · rw [if_pos ⟨hk, hc⟩, if_pos ⟨by omega, by omega, hc⟩]
        · rw [if_neg fun hx => hc hx.2, if_neg fun hx => hc hx.2.2]
      · have h2 : (if (n : ℤ) = k ∧ cols n = c then vals n else 0) = 0 :=
          if_neg fun hx => hk hx.1
        rw [h2, add_zero]
        by_cases hin : 0 ≤ k ∧ k < (n : ℤ) ∧ cols k.toNat = c
        · rw [if_pos hin, if_pos ⟨hin.1, by omega, hin.2.2⟩]
        · rw [if_neg hin, if_neg]
          rintro ⟨h1, h2, h3⟩
          exact hin ⟨h1, by omega, h3⟩

theorem evalList_smoothPart {F : Type} [Field F] (n : ℕ) (ss : List (Entry F))
    (hb : ∀ e ∈ ss, 0 ≤ e.2.1 ∧ e.2.1 < (n : ℤ))
    (g : ℤ → ℤ) (w : ℤ → F) (m : F) (dv : ℤ → F) (r c : ℤ) :
    evalList (ss.map fun e => (e.1, g e.2.1, ((e.2.2 * w e.2.1) * m) / dv e.1)) r c
      = (∑ k ∈ Finset.Ico (0 : ℤ) (n : ℤ),
          (if g k = c then evalList ss r k * w k else 0)) * m / dv r := by
  induction ss with
  | nil =>
      simp [evalList_nil]
  | cons e rest ih =>
      have hrest : ∀ f ∈ rest, 0 ≤ f.2.1 ∧ f.2.1 < (n : ℤ) :=
        fun f hf => hb f (List.mem_cons_of_mem e hf)
      have he : e.2.1 ∈ Finset.Ico (0 : ℤ) (n : ℤ) := by
        rw [Finset.mem_Ico]; exact hb e (List.mem_cons_self e rest)
      rw [List.map_cons, evalList_cons, ih hrest]
      have hsplit : ∀ k ∈ Finset.Ico (0 : ℤ) (n : ℤ),
          (if g k = c then evalList (e :: rest) r k * w k else 0)
            = (if e.2.1 = k then (if e.1 = r ∧ g k = c then e.2.2 * w k else 0) else 0)
              + (if g k = c then evalList rest r k * w k else 0) := by
        intro k _
        rw [evalList_cons]
        by_cases hgk : g k = c
        · rw [if_pos hgk, if_pos hgk, add_mul]
          congr 1
          by_cases hek : e.2.1 = k
          · rw [if_pos hek]
            by_cases her : e.1 = r
            · rw [if_pos ⟨her, hek⟩, if_pos ⟨her, hgk⟩]
            · rw [if_neg fun hx => her hx.1, if_neg fun hx => her hx.1, zero_mul]
          · rw [if_neg hek, if_neg fun hx => hek hx.2, zero_mul]
        · rw [if_neg hgk, if_neg hgk, add_zero]
          by_cases hek : e.2.1 = k
          · rw [if_pos hek, if_neg fun hx => hgk hx.2]
          · rw [if_neg hek]
      rw [Finset.sum_congr rfl hsplit, Finset.sum_add_distrib, Finset.sum_ite_eq, if_pos he,
          add_mul, add_div]
      congr 1
      by_cases her : e.1 = r
      · by_cases hgc : g e.2.1 = c
        · rw [if_pos ⟨her, hgc⟩, if_pos ⟨her, hgc⟩, her]
        · rw [if_neg fun hx => hgc hx.2, if_neg fun hx => hgc hx.2, zero_mul, zero_div]
      · rw [if_neg fun hx => her hx.1, if_neg fun hx => her hx.1, zero_mul, zero_div]

/-- C2: for a sparse matrix `A` with nonzero diagonal and a tentative
prolongator `T` with exactly one nonzero per row (stored in row order, as
`fit_candidates` produces), `smooth_prolongator(A, T, ω, ρ)` returns
`P = (I − (ω/ρ)·D⁻¹A)·T` where `D` is the diagonal of `A`: entrywise
`P[r,c] = T[r,c] − (ω/ρ)·(Σ_k A[r,k]·T[k,c])/D[r]`; and after sorting by
`(row, col)` and sum-reducing, `P` holds at most one entry per `(row, col)`. -/
theorem claim_C2_smooth_prolongator {F : Type} [LinearOrderedField F]
    (S T : Coo F) (omega rho rhoEstimate : F)
    (hS : S.Wf) (hSdist : KeysDistinct S.entries)
    (hST : S.num_cols = T.num_rows)
    (hTn : T.entries.length = T.num_rows)
    (hTrow : ∀ (j : ℕ) (hj : j < T.entries.length), (T.entries.get ⟨j, hj⟩).1 = (j : ℤ))
    (hdiag : ∀ i : ℤ, 0 ≤ i → i < (S.num_rows : ℤ) → S.eval i i ≠ 0)
    (hrho : rho ≠ 0) :
    (∀ r c : ℤ,
        (smooth_prolongator S T omega rho rhoEstimate).eval r c
          = T.eval r c - omega / rho
              * (∑ k ∈ Finset.Ico (0 : ℤ) (S.num_cols : ℤ), S.eval r k * T.eval k c)
              / S.eval r r)
      ∧ KeysDistinct (smooth_prolongator S T omega rho rhoEstimate).entries := by
  have hent : (smooth_prolongator S T omega rho rhoEstimate).entries
      = sortReduce ((S.entries.map fun e =>
          (e.1, (T.entries.map fun e => e.2.1).getD e.2.1.toNat 0,
            ((e.2.2 * (T.entries.map fun e => e.2.2).getD e.2.1.toNat 0)
              * (-(omega / (if rho = 0 then rhoEstimate else rho)))) / diagEntry S e.1))
        ++ T.entries) := rfl
  constructor
  · intro r c
    have hTeq : T.entries = (List.range T.num_rows).map fun j : ℕ =>
        ((j : ℤ), (T.entries.map fun e => e.2.1).getD j 0,
          (T.entries.map fun e => e.2.2).getD j 0) := by
      apply List.ext_get
      · simp [hTn]
      · intro j h1 h2
        have hr : ((List.range T.num_rows).map fun j : ℕ =>
            ((j : ℤ), (T.entries.map fun e => e.2.1).getD j 0,
              (T.entries.map fun e => e.2.2).getD j 0)).get ⟨j, h2⟩
            = ((j : ℤ), (T.entries.map fun e => e.2.1).getD j 0,
              (T.entries.map fun e => e.2.2).getD j 0) := by
          simp [List.get_eq_getElem, List.getElem_map, List.getElem_range]
        rw [hr]
        refine Prod.ext ?_ (Prod.ext ?_ ?_)
        · exact hTrow j h1
        · exact (getD_map_lt (fun e => e.2.1) T.entries j h1 0).symm
        · exact (getD_map_lt (fun e => e.2.2) T.entries j h1 0).symm
    have evalT : ∀ k c' : ℤ, evalList T.entries k c'
        = if 0 ≤ k ∧ k < (T.num_rows : ℤ)
            ∧ (T.entries.map fun e => e.2.1).getD k.toNat 0 = c'
          then (T.entries.map fun e => e.2.2).getD k.toNat 0 else 0 := by
      intro k c'
      conv_lhs => rw [hTeq]
      exact evalList_rangeMap _ _ _ k c'
    unfold Coo.eval
    rw [hent, evalList_sortReduce, evalList_append]
    rw [evalList_smoothPart S.num_cols S.entries (fun e he => (hS e he).2.2)
        (fun x => (T.entries.map fun e => e.2.1).getD x.toNat 0)
        (fun x => (T.entries.map fun e => e.2.2).getD x.toNat 0)
        (-(omega / (if rho = 0 then rhoEstimate else rho)))
        (diagEntry S) r c]
    have hsum : ∑ k ∈ Finset.Ico (0 : ℤ) (S.num_cols : ℤ),
        (if (T.entries.map fun e => e.2.1).getD k.toNat 0 = c
          then evalList S.entries r k * (T.entries.map fun e => e.2.2).getD k.toNat 0 else 0)
        = ∑ k ∈ Finset.Ico (0 : ℤ) (S.num_cols : ℤ),
            evalList S.entries r k * evalList T.entries k c := by
      refine Finset.sum_congr rfl ?_
      intro k hk
      rw [Finset.mem_Ico] at hk
      rw [evalT k c]
      by_cases hc : (T.entries.map fun e => e.2.1).getD k.toNat 0 = c
      · rw [if_pos hc, if_pos ⟨hk.1, by rw [← hST]; exact hk.2, hc⟩]
      · rw [if_neg hc, if_neg fun hx => hc hx.2.2, mul_zero]
    rw [hsum, if_neg hrho]
    have hD : diagEntry S r = evalList S.entries r r := diagEntry_eval hSdist r
    rw [hD]
    ring
  · rw [hent]
    exact sortReduce_keysDistinct _

/-- Witness for C2 at a concrete symmetric matrix with unit-diagonal-dominant
entries and the tentative prolongator of a single aggregate. -/
theorem claim_C2_witness :
    (smooth_prolongator (⟨2, 2, [(0, 0, 2), (0, 1, 1), (1, 0, 1), (1, 1, 2)]⟩ : Coo ℚ)
        (⟨2, 1, [(0, 0, 1), (1, 0, 1)]⟩ : Coo ℚ) 1 2 0).eval 0 0
      = (⟨2, 1, [(0, 0, 1), (1, 0, 1)]⟩ : Coo ℚ).eval 0 0
        - 1 / 2 * (∑ k ∈ Finset.Ico (0 : ℤ) ((2 : ℕ) : ℤ),
            (⟨2, 2, [(0, 0, 2), (0, 1, 1), (1, 0, 1), (1, 1, 2)]⟩ : Coo ℚ).eval 0 k
              * (⟨2, 1, [(0, 0, 1), (1, 0, 1)]⟩ : Coo ℚ).eval k 0)
          / (⟨2, 2, [(0, 0, 2), (0, 1, 1), (1, 0, 1), (1, 1, 2)]⟩ : Coo ℚ).eval 0 0 :=
  (claim_C2_smooth_prolongator _ _ 1 2 0 (by decide) (by decide) (by decide) (by decide)
    (by decide)
    (by
      intro i h1 h2
      have hi : i = 0 ∨ i = 1 := by
        simp only [show (⟨2, 2, [(0, 0, 2), (0, 1, 1), (1, 0, 1), (1, 1, 2)]⟩ :
          Coo ℚ).num_rows = 2 from rfl] at h2
        omega
      rcases hi with rfl | rfl <;> simp [Coo.eval, evalList])
    (by decide)).1 0 0

theorem foldl_max_init_le (l : List ℤ) (b : ℤ) : b ≤ l.foldl max b := by
  induction l generalizing b with
  | nil => exact le_refl b
  | cons a rest ih => exact le_trans (le_max_left b a) (ih (max b a))

theorem mem_le_foldl_max {l : List ℤ} {x : ℤ} (hx : x ∈ l) :
    ∀ b : ℤ, x ≤ l.foldl max b := by
  induction l with
  | nil => cases hx
  | cons a rest ih =>
      intro b
      rcases List.mem_cons.mp hx with rfl | hx2
      · exact le_trans (le_max_right b x) (foldl_max_init_le rest _)
      · exact ih hx2 (max b a)

theorem le_listMax {l : List ℤ} {x : ℤ} (hx : x ∈ l) : x ≤ listMax l :=
  mem_le_foldl_max hx _

theorem reduceByKey_keys_supset {F : Type} [Add F] (l : List (Entry F)) :
    ∀ k ∈ l.map entryKey, k ∈ (reduceByKey l).map entryKey := by
  induction l using reduceByKey.induct with
  | case1 => intro k hk; cases hk
  | case2 e => intro k hk; rw [reduceByKey]; exact hk
  | case3 e f rest h ih =>
      intro k hk
      rw [reduceByKey, if_pos h]
      apply ih
      simp only [List.map_cons, List.mem_cons] at hk ⊢
      rcases hk with h1 | h1 | h1
      · exact Or.inl h1
      · exact Or.inl (h1.trans h.symm)
      · exact Or.inr h1
  | case4 e f rest h ih =>
      intro k hk
      rw [reduceByKey, if_neg h]
      simp only [List.map_cons, List.mem_cons] at hk ⊢
      rcases hk with h1 | h1
      · exact Or.inl h1
      · exact Or.inr (by simpa using ih k (by simpa using h1))

theorem evalList_of_unique {F : Type} [AddCommMonoid F] {l : List (Entry F)}
    (h : KeysDistinct l) {k : ℕ} (hk : k < l.length) {r c : ℤ}
    (hkey : entryKey (l.get ⟨k, hk⟩) = (r, c)) :
    evalList l r c = (l.get ⟨k, hk⟩).2.2 := by
  induction l generalizing k with
  | nil => simp at hk
  | cons e rest ih =>
      rcases List.pairwise_cons.mp h with ⟨he, hrest⟩
      cases k with
      | zero =>
          have hkey0 : entryKey e = (r, c) := hkey
          have hm : e.1 = r ∧ e.2.1 = c :=
            ⟨(Prod.ext_iff.mp hkey0).1, (Prod.ext_iff.mp hkey0).2⟩
          rw [evalList_cons, if_pos hm,
              evalList_eq_zero_of_no_match (fun f hf hfm => he f hf (by
                have hfk : entryKey f = (r, c) := by
                  unfold entryKey; rw [hfm.1, hfm.2]
                rw [hkey0, hfk])),
              add_zero]
          rfl
      | succ j =>
          have hj : j < rest.length := by simpa using hk
          have hget : (e :: rest).get ⟨j + 1, hk⟩ = rest.get ⟨j, hj⟩ := rfl
          rw [hget] at hkey ⊢
          rw [evalList_cons, if_neg, ih hrest hj hkey, zero_add]
          intro hm
          apply he (rest.get ⟨j, hj⟩) (rest.get_mem _ _)
          have h1 : entryKey e = (r, c) := by unfold entryKey; rw [hm.1, hm.2]
          rw [h1, hkey]

theorem strict_incr_get : ∀ (ks : List ℤ) (lo hi : ℤ), ks.Pairwise (· < ·) →
    (∀ a : ℤ, a ∈ ks ↔ (lo ≤ a ∧ a < hi)) →
    ∀ (k : ℕ) (hk : k < ks.length), ks.get ⟨k, hk⟩ = lo + k := by
  intro ks
  induction ks with
  | nil => intro lo hi _ _ k hk; simp at hk
  | cons a rest ih =>
      intro lo hi hsorted hmem k hk
      rcases List.pairwise_cons.mp hsorted with ⟨ha, hrest⟩
      have halo : a = lo := by
        have h1 : lo ≤ a ∧ a < hi := (hmem a).mp (List.mem_cons_self a rest)
        have h2 : lo ∈ a :: rest := (hmem lo).mpr ⟨le_refl lo, lt_of_le_of_lt h1.1 h1.2⟩
        rcases List.mem_cons.mp h2 with h3 | h3
        · exact h3.symm
        · exact absurd (ha lo h3) (by omega)
      have hmem' : ∀ b : ℤ, b ∈ rest ↔ (lo + 1 ≤ b ∧ b < hi) := by
        intro b
        constructor
        · intro hb
          have hbk := (hmem b).mp (List.mem_cons_of_mem a hb)
          have := ha b hb
          omega
        · intro hb
          have hbm : b ∈ a :: rest := (hmem b).mpr ⟨by omega, hb.2⟩
          rcases List.mem_cons.mp hbm with h3 | h3
          · exact absurd (h3.trans halo) (by omega)
          · exact h3
      cases k with
      | zero => simpa using halo
      | succ j =>
          have hj : j < rest.length := by simpa using hk
          have hres := ih (lo + 1) hi hrest hmem' j hj
          have hget : (a :: rest).get ⟨j + 1, hk⟩ = rest.get ⟨j, hj⟩ := rfl
          rw [hget, hres]
          push_cast
          ring

theorem strict_incr_length (ks : List ℤ) (lo hi : ℤ)
    (hsorted : ks.Pairwise (· < ·))
    (hmem : ∀ a : ℤ, a ∈ ks ↔ (lo ≤ a ∧ a < hi)) :
    ks.length = (hi - lo).toNat := by
  have hnd : ks.Nodup := hsorted.imp fun h => ne_of_lt h
  have hfin : ks.toFinset = Finset.Ico lo hi := by
    ext a
    rw [List.mem_toFinset, hmem a, Finset.mem_Ico]
  calc ks.length = ks.toFinset.card := (List.toFinset_card_of_nodup hnd).symm
    _ = (hi - lo).toNat := by rw [hfin, Int.card_Ico]

theorem padTrunc_of_length {F : Type} [Zero F] {l : List F} {m : ℕ}
    (h : l.length = m) : padTrunc m l = l := by
  unfold padTrunc
  subst h
  simp

/-- Sum of `B[i]²` over the fine rows assigned to aggregate `a`. -/
def aggSumSq {F : Type} [NonUnitalNonAssocSemiring F] (aggregates : List ℤ) (B : List F)
    (a : ℤ) : F :=
  ((List.range aggregates.length).map fun i =>
    if aggregates.getD i 0 = a then B.getD i 0 * B.getD i 0 else 0).sum

/-- Sum of squares of the entries of column `a` of `M` over all rows. -/
def colNormSq {F : Type} [NonUnitalNonAssocSemiring F] (M : Coo F) (a : ℤ) : F :=
  ((List.range M.num_rows).map fun i : ℕ => M.eval (i : ℤ) a * M.eval (i : ℤ) a).sum

theorem mem_iff_getD {l : List ℤ} {a : ℤ} :
    a ∈ l ↔ ∃ i : ℕ, i < l.length ∧ l.getD i 0 = a := by
  rw [List.mem_iff_getElem]
  constructor
  · rintro ⟨i, hi, hv⟩
    exact ⟨i, hi, by rw [List.getD_eq_getElem?_getD, List.getElem?_eq_getElem hi]; exact hv⟩
  · rintro ⟨i, hi, hv⟩
    exact ⟨i, hi, by rw [List.getD_eq_getElem?_getD, List.getElem?_eq_getElem hi] at hv; exact hv⟩

theorem evalList_sq_rows {F : Type} [AddCommMonoid F] [Mul F] (l : List (Entry F)) (a : ℤ) :
    evalList (l.map fun e => (e.1, (0 : ℤ), e.2.2 * e.2.2)) a 0
      = (l.map fun e => if e.1 = a then e.2.2 * e.2.2 else 0).sum := by
  unfold evalList
  rw [List.map_map]
  congr 1
  apply List.map_congr_left
  intro e _
  simp only [Function.comp_apply]
  by_cases h : e.1 = a <;> simp [h]

/-- On a `(row, col)`-sorted list whose column indices are all `0` and whose
row indices cover exactly `[0, mx]`, `reduce_by_key` produces one entry per
row index, in increasing order, holding the per-key sums. -/
theorem reduceByKey_sorted_cover {F : Type} [AddCommMonoid F] (l : List (Entry F)) (mx : ℤ)
    (hsorted : l.Pairwise entryLe)
    (hcol : ∀ e ∈ l, e.2.1 = 0)
    (hkeys : ∀ a : ℤ, (∃ e ∈ l, e.1 = a) ↔ (0 ≤ a ∧ a < mx + 1)) :
    (reduceByKey l).length = (mx + 1).toNat
    ∧ ∀ (k : ℕ) (hk : k < (reduceByKey l).length),
        (reduceByKey l).get ⟨k, hk⟩ = ((k : ℤ), 0, evalList l (k : ℤ) 0) := by
  have hdist : (reduceByKey l).Pairwise entryLt := reduceByKey_pairwise hsorted
  have hcol' : ∀ g ∈ reduceByKey l, g.2.1 = 0 := by
    intro g hg
    have hsub := reduceByKey_keys_subset l g hg
    rcases List.mem_map.mp hsub with ⟨e, he, hk⟩
    have : e.2.1 = g.2.1 := (Prod.ext_iff.mp hk).2
    rw [← this]
    exact hcol e he
  have hks_sorted : ((reduceByKey l).map fun e => e.1).Pairwise (· < ·) := by
    rw [List.pairwise_map]
    refine hdist.imp_of_mem ?_
    intro g g' hg hg' hlt
    have h0 : g.2.1 = 0 := hcol' g hg
    have h0' : g'.2.1 = 0 := hcol' g' hg'
    unfold entryLt keyLt entryKey at hlt
    simp only at hlt
    omega
  have hks_mem : ∀ a : ℤ, (a ∈ (reduceByKey l).map fun e => e.1) ↔ (0 ≤ a ∧ a < mx + 1) := by
    intro a
    constructor
    · intro ha
      rcases List.mem_map.mp ha with ⟨g, hg, rfl⟩
      have hsub := reduceByKey_keys_subset l g hg
      rcases List.mem_map.mp hsub with ⟨e, he, hk⟩
      have h1 : e.1 = g.1 := (Prod.ext_iff.mp hk).1
      exact (hkeys g.1).mp ⟨e, he, h1⟩
    · intro ha
      rcases (hkeys a).mpr ha with ⟨e, he, rfl⟩
      have hin : entryKey e ∈ l.map entryKey := List.mem_map_of_mem entryKey he
      have hout := reduceByKey_keys_supset l (entryKey e) hin
      rcases List.mem_map.mp hout with ⟨g, hg, hk⟩
      have h1 : g.1 = e.1 := (Prod.ext_iff.mp hk).1
      exact List.mem_map.mpr ⟨g, hg, h1⟩
  have hlen : (reduceByKey l).length = (mx + 1).toNat := by
    have := strict_incr_length ((reduceByKey l).map fun e => e.1) 0 (mx + 1)
      hks_sorted (fun a => by rw [hks_mem a])
    rw [List.length_map] at this
    rw [this]
    congr 1
    omega
  refine ⟨hlen, ?_⟩
  intro k hk
  have hk' : k < ((reduceByKey l).map fun e => e.1).length := by
    rw [List.length_map]; exact hk
  have hfst : ((reduceByKey l).get ⟨k, hk⟩).1 = (k : ℤ) := by
    have hgm : ((reduceByKey l).map fun e => e.1).get ⟨k, hk'⟩
        = ((reduceByKey l).get ⟨k, hk⟩).1 := by
      simp [List.get_eq_getElem, List.getElem_map]
    have := strict_incr_get ((reduceByKey l).map fun e => e.1) 0 (mx + 1)
      hks_sorted (fun a => by rw [hks_mem a]) k hk'
    rw [hgm] at this
    rw [this]; ring
  have hsnd : ((reduceByKey l).get ⟨k, hk⟩).2.1 = 0 :=
    hcol' _ ((reduceByKey l).get_mem _ _)
  have hval : evalList (reduceByKey l) (k : ℤ) 0 = ((reduceByKey l).get ⟨k, hk⟩).2.2 :=
    evalList_of_unique (hdist.imp fun h => keyLt_ne h) hk
      (by unfold entryKey; rw [hfst, hsnd])
  refine Prod.ext hfst (Prod.ext hsnd ?_)
  rw [← hval, evalList_reduceByKey]

/-- The entry list of the unscaled tentative prolongator built by
`fit_candidates`: row `i`, column `aggregates[i]`, value `B[i]` (definitional
alias of the corresponding stage of `fit_candidates`, for proofs). -/
def tentEntries {F : Type} [Zero F] (aggregates : List ℤ) (B : List F) : List (Entry F) :=
  (List.range aggregates.length).map fun i : ℕ => ((i : ℤ), aggregates.getD i 0, B.getD i 0)

/-- The squared values of the transposed tentative prolongator, keyed by
aggregate id, as fed to `reduce_by_key` in `fit_candidates` (definitional
alias for proofs). -/
def fitSquares {F : Type} [Zero F] [Mul F] (aggregates : List ℤ) (B : List F) : List (Entry F) :=
  (sortEntries ((tentEntries aggregates B).map swapEntry)).map
    fun e => (e.1, (0 : ℤ), e.2.2 * e.2.2)

/-- The per-aggregate norm array `R` computed by `fit_candidates`
(definitional alias for proofs). -/
def fitNorms {F : Type} [LinearOrderedField F] (sqrtFn : F → F) (aggregates : List ℤ)
    (B : List F) : List F :=
  (padTrunc (listMax aggregates + 1).toNat
    ((reduceByKey (fitSquares aggregates B)).map fun e => e.2.2)).map sqrtFn

theorem fit_candidates_snd {F : Type} [LinearOrderedField F] (sqrtFn : F → F)
    (aggregates : List ℤ) (B : List F) :
    (fit_candidates sqrtFn aggregates B).2 = fitNorms sqrtFn aggregates B := rfl

theorem fit_candidates_fst {F : Type} [LinearOrderedField F] (sqrtFn : F → F)
    (aggregates : List ℤ) (B : List F) :
    (fit_candidates sqrtFn aggregates B).1
      = ⟨aggregates.length, (listMax aggregates + 1).toNat,
          (tentEntries aggregates B).map fun e =>
            (e.1, e.2.1, e.2.2 / (fitNorms sqrtFn aggregates B).getD e.2.1.toNat 0)⟩ := rfl

theorem padTrunc_length {F : Type} [Zero F] (m : ℕ) (l : List F) :
    (padTrunc m l).length = m := by
  unfold padTrunc
  rw [List.length_take, List.length_append, List.length_replicate]
  omega

theorem fitSquares_sorted {F : Type} [Zero F] [Mul F] (aggregates : List ℤ) (B : List F) :
    (fitSquares aggregates B).Pairwise entryLe := by
  unfold fitSquares
  rw [List.pairwise_map]
  refine (sortEntries_pairwise _).imp ?_
  intro a b hab
  unfold entryLe entryKey keyLe at hab ⊢
  simp only at hab ⊢
  omega

theorem fitSquares_col {F : Type} [Zero F] [Mul F] (aggregates : List ℤ) (B : List F) :
    ∀ e ∈ fitSquares aggregates B, e.2.1 = 0 := by
  intro e he
  rcases List.mem_map.mp he with ⟨f, _, rfl⟩
  rfl

theorem fitSquares_keys {F : Type} [Zero F] [Mul F] (aggregates : List ℤ) (B : List F)
    (hagg : ∀ a ∈ aggregates, 0 ≤ a)
    (hsur : ∀ a : ℤ, 0 ≤ a → a ≤ listMax aggregates → a ∈ aggregates) :
    ∀ a : ℤ, (∃ e ∈ fitSquares aggregates B, e.1 = a)
      ↔ (0 ≤ a ∧ a < listMax aggregates + 1) := by
  intro a
  constructor
  · rintro ⟨e, he, rfl⟩
    rcases List.mem_map.mp he with ⟨f, hf, rfl⟩
    have hf2 : f ∈ (tentEntries aggregates B).map swapEntry :=
      (sortEntries_perm _).mem_iff.mp hf
    rcases List.mem_map.mp hf2 with ⟨q, hq, rfl⟩
    rcases List.mem_map.mp hq with ⟨i, hi, rfl⟩
    have hmem : aggregates.getD i 0 ∈ aggregates :=
      mem_iff_getD.mpr ⟨i, List.mem_range.mp hi, rfl⟩
    show 0 ≤ aggregates.getD i 0 ∧ aggregates.getD i 0 < listMax aggregates + 1
    exact ⟨hagg _ hmem, by have := le_listMax hmem; omega⟩
  · rintro ⟨h0, h1⟩
    have hmem : a ∈ aggregates := hsur a h0 (by omega)
    rcases mem_iff_getD.mp hmem with ⟨i, hi, hv⟩
    refine ⟨(aggregates.getD i 0, (0 : ℤ), B.getD i 0 * B.getD i 0), ?_, hv⟩
    apply List.mem_map.mpr
    refine ⟨(aggregates.getD i 0, (i : ℤ), B.getD i 0), ?_, rfl⟩
    apply (sortEntries_perm _).mem_iff.mpr
    apply List.mem_map.mpr
    refine ⟨((i : ℤ), aggregates.getD i 0, B.getD i 0), ?_, rfl⟩
    exact List.mem_map.mpr ⟨i, List.mem_range.mpr hi, rfl⟩

theorem fitSquares_eval {F : Type} [NonUnitalNonAssocSemiring F] (aggregates : List ℤ)
    (B : List F) (a : ℤ) :
    evalList (fitSquares aggregates B) a 0 = aggSumSq aggregates B a := by
  unfold fitSquares
  rw [evalList_sq_rows]
  rw [((sortEntries_perm ((tentEntries aggregates B).map swapEntry)).map
    fun e => if e.1 = a then e.2.2 * e.2.2 else 0).sum_eq]
  unfold tentEntries aggSumSq
  rw [List.map_map, List.map_map]
  exact congrArg List.sum (List.map_congr_left fun i _ => rfl)

/-- The norm array `R` of `fit_candidates` holds, at every aggregate id
`a ∈ [0, max+1)`, the square root of the sum of the squared `B` values of the
rows of aggregate `a`. -/
theorem fit_candidates_norm {F : Type} [LinearOrderedField F] (sqrtFn : F → F)
    (aggregates : List ℤ) (B : List F)
    (hagg : ∀ a ∈ aggregates, 0 ≤ a)
    (hsur : ∀ a : ℤ, 0 ≤ a → a ≤ listMax aggregates → a ∈ aggregates) :
    ∀ a : ℤ, 0 ≤ a → a ≤ listMax aggregates →
      (fitNorms sqrtFn aggregates B).getD a.toNat 0 = sqrtFn (aggSumSq aggregates B a) := by
  intro a h0 h1
  obtain ⟨hlen, hget⟩ := reduceByKey_sorted_cover (fitSquares aggregates B)
    (listMax aggregates) (fitSquares_sorted aggregates B) (fitSquares_col aggregates B)
    (fitSquares_keys aggregates B hagg hsur)
  have hmaplen : ((reduceByKey (fitSquares aggregates B)).map fun e : Entry F => e.2.2).length
      = (listMax aggregates + 1).toNat := by
    rw [List.length_map, hlen]
  unfold fitNorms
  rw [padTrunc_of_length hmaplen]
  have hna : a.toNat < ((reduceByKey (fitSquares aggregates B)).map
      fun e : Entry F => e.2.2).length := by
    rw [hmaplen]; omega
  have hna' : a.toNat < (reduceByKey (fitSquares aggregates B)).length := by
    rw [hlen]; omega
  rw [getD_map_lt sqrtFn _ a.toNat hna 0]
  congr 1
  have hgm : (((reduceByKey (fitSquares aggregates B)).map fun e : Entry F => e.2.2).get
      ⟨a.toNat, hna⟩) = ((reduceByKey (fitSquares aggregates B)).get ⟨a.toNat, hna'⟩).2.2 := by
    simp [List.get_eq_getElem, List.getElem_map]
  rw [hgm, hget a.toNat hna']
  show evalList (fitSquares aggregates B) ((a.toNat : ℕ) : ℤ) 0 = _
  rw [fitSquares_eval]
  congr 1
  omega

theorem sum_range_ite {F : Type} [AddCommMonoid F] (n r : ℕ) (h : ℕ → F) :
    ((List.range n).map fun i : ℕ => if (i : ℤ) = (r : ℤ) then h i else 0).sum
      = if r < n then h r else 0 := by
  induction n with
  | zero => rw [List.range_zero, List.map_nil, List.sum_nil, if_neg (by omega)]
  | succ n ih =>
      rw [List.range_succ, List.map_append, List.sum_append, ih, List.map_singleton,
          List.sum_singleton]
      by_cases hr : n = r
      · subst hr
        rw [if_neg (by omega), if_pos rfl, if_pos (by omega), zero_add]
      · have hs : (if ((n : ℕ) : ℤ) = ((r : ℕ) : ℤ) then h n else 0) = 0 :=
          if_neg (by exact_mod_cast hr)
        rw [hs, add_zero]
        by_cases hlt : r < n
        · rw [if_pos hlt, if_pos (by omega)]
        · rw [if_neg hlt, if_neg (by omega)]

theorem list_sum_map_div {F : Type} [DivisionRing F] {α : Type} (l : List α)
    (f : α → F) (s : F) : (l.map fun x => f x / s).sum = (l.map f).sum / s := by
  induction l with
  | nil => simp
  | cons x rest ih =>
      rw [List.map_cons, List.map_cons, List.sum_cons, List.sum_cons, ih, add_div]

theorem aggSumSq_nonneg {F : Type} [LinearOrderedRing F] (aggregates : List ℤ)
    (B : List F) (a : ℤ) : 0 ≤ aggSumSq aggregates B a := by
  apply List.sum_nonneg
  intro x hx
  rcases List.mem_map.mp hx with ⟨i, _, rfl⟩
  by_cases hc : aggregates.getD i 0 = a
  · rw [if_pos hc]; exact mul_self_nonneg _
  · rw [if_neg hc]

theorem mulVec_length {F : Type} [NonUnitalNonAssocSemiring F] (M : Coo F) (x : List F) :
    (mulVec M x).length = M.num_rows := by
  unfold mulVec
  rw [List.length_map, List.length_range]

theorem mulVec_get {F : Type} [NonUnitalNonAssocSemiring F] (M : Coo F) (x : List F)
    (r : ℕ) (hr : r < (mulVec M x).length) :
    (mulVec M x).get ⟨r, hr⟩
      = (M.entries.map fun e =>
          if e.1 = (r : ℤ) then e.2.2 * x.getD e.2.1.toNat 0 else 0).sum := by
  unfold mulVec
  simp [List.get_eq_getElem, List.getElem_map, List.getElem_range]

/-- C3 (amended): for an aggregate assignment in which every id in
`[0, max(aggregates)+1)` appears and a candidate vector `B` of matching length
whose restriction to every aggregate is not identically zero,
`fit_candidates(aggregates, B)` returns `(T, B_coarse)` with `B_coarse[agg]`
the Euclidean norm (square root of the sum of squares) of the `B` entries of
the rows of aggregate `agg`, `T · B_coarse = B` exactly at every fine row, and
each column of `T` unit-normalised.  `sqrtFn` stands for the C library
`sqrt`; `hsqrt` is its defining property on nonnegative arguments. -/
theorem claim_C3_fit_candidates {F : Type} [LinearOrderedField F] (sqrtFn : F → F)
    (aggregates : List ℤ) (B : List F)
    (hagg : ∀ a ∈ aggregates, 0 ≤ a)
    (hsur : ∀ a : ℤ, 0 ≤ a → a ≤ listMax aggregates → a ∈ aggregates)
    (hB : B.length = aggregates.length)
    (hsqrt : ∀ x : F, 0 ≤ x → sqrtFn x * sqrtFn x = x)
    (hnz : ∀ a : ℤ, 0 ≤ a → a ≤ listMax aggregates → aggSumSq aggregates B a ≠ 0) :
    (∀ a : ℤ, 0 ≤ a → a ≤ listMax aggregates →
        (fit_candidates sqrtFn aggregates B).2.getD a.toNat 0
          = sqrtFn (aggSumSq aggregates B a))
    ∧ mulVec (fit_candidates sqrtFn aggregates B).1 (fit_candidates sqrtFn aggregates B).2
        = B
    ∧ (∀ a : ℤ, 0 ≤ a → a ≤ listMax aggregates →
        colNormSq (fit_candidates sqrtFn aggregates B).1 a = 1) := by
  have hnorm := fit_candidates_norm sqrtFn aggregates B hagg hsur
  have hQent : (fit_candidates sqrtFn aggregates B).1.entries
      = (List.range aggregates.length).map fun j : ℕ =>
          ((j : ℤ), aggregates.getD j 0,
            B.getD j 0 / (fitNorms sqrtFn aggregates B).getD
              (aggregates.getD j 0).toNat 0) := by
    rw [fit_candidates_fst]
    show List.map _ (tentEntries aggregates B) = _
    unfold tentEntries
    rw [List.map_map]
    exact List.map_congr_left fun i _ => rfl
  have hRbound : ∀ i : ℕ, i < aggregates.length →
      0 ≤ aggregates.getD i 0 ∧ aggregates.getD i 0 ≤ listMax aggregates := by
    intro i hi
    have hmem : aggregates.getD i 0 ∈ aggregates := mem_iff_getD.mpr ⟨i, hi, rfl⟩
    exact ⟨hagg _ hmem, le_listMax hmem⟩
  have hsq : ∀ a : ℤ,
      sqrtFn (aggSumSq aggregates B a) * sqrtFn (aggSumSq aggregates B a)
        = aggSumSq aggregates B a := fun a => hsqrt _ (aggSumSq_nonneg aggregates B a)
  have hsqne : ∀ a : ℤ, 0 ≤ a → a ≤ listMax aggregates →
      sqrtFn (aggSumSq aggregates B a) ≠ 0 := by
    intro a h0 h1 hz
    exact hnz a h0 h1 (by rw [← hsq a, hz, mul_zero])
  refine ⟨?_, ?_, ?_⟩
  · intro a h0 h1
    rw [fit_candidates_snd]
    exact hnorm a h0 h1
  · rw [fit_candidates_snd]
    apply List.ext_get
    · rw [mulVec_length, hB]
      rfl
    · intro r h1 h2
      have hr : r < aggregates.length := by
        have h3 := h1
        rw [mulVec_length] at h3
        exact h3
      rw [mulVec_get, hQent, List.map_map]
      have hcomp : (List.map ((fun e : Entry F =>
          if e.1 = (r : ℤ) then e.2.2 * (fitNorms sqrtFn aggregates B).getD e.2.1.toNat 0
          else 0)
            ∘ fun j : ℕ => ((j : ℤ), aggregates.getD j 0,
                B.getD j 0 / (fitNorms sqrtFn aggregates B).getD
                  (aggregates.getD j 0).toNat 0))
          (List.range aggregates.length)).sum
        = ((List.range aggregates.length).map fun i : ℕ =>
            if (i : ℤ) = (r : ℤ) then
              (B.getD i 0 / (fitNorms sqrtFn aggregates B).getD
                  (aggregates.getD i 0).toNat 0)
                * (fitNorms sqrtFn aggregates B).getD (aggregates.getD i 0).toNat 0
            else 0).sum := congrArg List.sum (List.map_congr_left fun i _ => rfl)
      rw [hcomp, sum_range_ite, if_pos hr,
          hnorm _ (hRbound r hr).1 (hRbound r hr).2,
          div_mul_cancel₀ _ (hsqne _ (hRbound r hr).1 (hRbound r hr).2),
          List.getD_eq_getElem?_getD, List.getElem?_eq_getElem h2]
      rfl
  · intro a h0 h1
    have heval : ∀ i : ℕ, i < aggregates.length →
        (fit_candidates sqrtFn aggregates B).1.eval (i : ℤ) a
          = if aggregates.getD i 0 = a
            then B.getD i 0 / sqrtFn (aggSumSq aggregates B a) else 0 := by
      intro i hi
      show evalList (fit_candidates sqrtFn aggregates B).1.entries (i : ℤ) a = _
      rw [hQent, evalList_rangeMap, Int.toNat_natCast]
      by_cases hc : aggregates.getD i 0 = a
      · rw [if_pos ⟨Int.natCast_nonneg i, by exact_mod_cast hi, hc⟩, if_pos hc, hc,
            hnorm a h0 h1]
      · rw [if_neg (fun hx => hc hx.2.2), if_neg hc]
    have hcol : colNormSq (fit_candidates sqrtFn aggregates B).1 a
        = ((List.range aggregates.length).map fun i : ℕ =>
            (fit_candidates sqrtFn aggregates B).1.eval (i : ℤ) a
              * (fit_candidates sqrtFn aggregates B).1.eval (i : ℤ) a).sum := rfl
    rw [hcol]
    have h2 : ∀ i ∈ List.range aggregates.length,
        (fit_candidates sqrtFn aggregates B).1.eval (i : ℤ) a
            * (fit_candidates sqrtFn aggregates B).1.eval (i : ℤ) a
          = (if aggregates.getD i 0 = a then B.getD i 0 * B.getD i 0 else 0)
              / aggSumSq aggregates B a := by
      intro i hi
      rw [heval i (List.mem_range.mp hi)]
      by_cases hc : aggregates.getD i 0 = a
      · rw [if_pos hc, if_pos hc, div_mul_div_comm, hsq a]
      · rw [if_neg hc, if_neg hc, zero_mul, zero_div]
    rw [List.map_congr_left h2,
        list_sum_map_div (List.range aggregates.length)
          (fun i : ℕ => if aggregates.getD i 0 = a then B.getD i 0 * B.getD i 0 else 0)
          (aggSumSq aggregates B a)]
    show aggSumSq aggregates B a / aggSumSq aggregates B a = 1
    exact div_self (hnz a h0 h1)

/-- Witness for the amended C3: two rows in one aggregate with `B = [3, 4]`
over `ℝ` with the genuine square root. -/
theorem claim_C3_witness :
    (∀ a : ℤ, 0 ≤ a → a ≤ listMax [0, 0] →
        (fit_candidates Real.sqrt [0, 0] [(3 : ℝ), 4]).2.getD a.toNat 0
          = Real.sqrt (aggSumSq [0, 0] [(3 : ℝ), 4] a))
    ∧ mulVec (fit_candidates Real.sqrt [0, 0] [(3 : ℝ), 4]).1
        (fit_candidates Real.sqrt [0, 0] [(3 : ℝ), 4]).2 = [(3 : ℝ), 4]
    ∧ (∀ a : ℤ, 0 ≤ a → a ≤ listMax [0, 0] →
        colNormSq (fit_candidates Real.sqrt [0, 0] [(3 : ℝ), 4]).1 a = 1) :=
  claim_C3_fit_candidates Real.sqrt [0, 0] [(3 : ℝ), 4]
    (by decide)
    (by
      intro a h0 h1
      have h3 : listMax [0, 0] = 0 := by decide
      have ha : a = 0 := by omega
      simp [ha])
    rfl
    (fun x hx => Real.mul_self_sqrt hx)
    (by
      intro a h0 h1
      have h3 : listMax [0, 0] = 0 := by decide
      have ha : a = 0 := by omega
      subst ha
      show aggSumSq [0, 0] [(3 : ℝ), 4] 0 ≠ 0
      unfold aggSumSq
      norm_num [List.range_succ])

/-- Counterexample to C3 as stated: with the single aggregate `[0]` and the
candidate vector `B = [0]` every id in `[0, max+1)` appears and `B` has
matching length, yet the single column of the returned tentative prolongator
is not unit-normalised — its sum of squares is `0`, not `1`.  (In IEEE
arithmetic the stored column value is `0/0 = NaN` and the normalisation fails
as well; in the exact model the division yields `0`.) -/
theorem claim_C3_counterexample :
    (∀ a ∈ ([0] : List ℤ), 0 ≤ a)
    ∧ (∀ a : ℤ, 0 ≤ a → a ≤ listMax [0] → a ∈ ([0] : List ℤ))
    ∧ ([(0 : ℝ)].length = ([0] : List ℤ).length)
    ∧ ¬ colNormSq (fit_candidates Real.sqrt [0] [(0 : ℝ)]).1 0 = 1 := by
  refine ⟨by decide, ?_, rfl, ?_⟩
  · intro a h0 h1
    have h3 : listMax [0] = 0 := by decide
    have ha : a = 0 := by omega
    simp [ha]
  · have hz : colNormSq (fit_candidates Real.sqrt [0] [(0 : ℝ)]).1 0 = 0 := by
      rw [fit_candidates_fst]
      simp [colNormSq, Coo.eval, evalList, tentEntries, List.range_succ]
    rw [hz]
    norm_num

/-- One level of the hierarchy (`smoothed_aggregation::level`): operator `A`,
candidate vector `B`, restriction `R`, prolongation `P`, aggregate ids and the
per-level scratch vectors `x`, `b`, `residual`.  The relaxation smoother
stored on the level (`cusp::relaxation::jacobi(A, omega)`, external) is
represented by its weight `omega`; the precomputed CSR views of the source are
derived data and are not modelled separately. -/
structure Level (F : Type) where
  A : Coo F
  B : List F
  R : Coo F
  P : Coo F
  aggregates : List ℤ
  x : List F
  b : List F
  residual : List F
  omega : F

/-- A default-constructed `level()`: empty containers. -/
def emptyLevel {F : Type} [Zero F] : Level F :=
  { A := ⟨0, 0, []⟩, B := [], R := ⟨0, 0, []⟩, P := ⟨0, 0, []⟩, aggregates := [],
    x := [], b := [], residual := [], omega := 0 }

/-- `Modelled from the spec:` the external collaborators of hierarchy
construction — strength-of-connection (`symmetric_strength_of_connection`),
aggregation (`standard_aggregation`), the spectral-radius estimate
(`estimate_rho_Dinv_A`) and the scalar square root used inside
`fit_candidates` — supplied as oracle functions, constrained only by their
spec contracts (stated as hypotheses of the theorems). -/
structure Oracles (F : Type) where
  strength : Coo F → F → Coo F
  aggregation : Coo F → List ℤ
  rho : Coo F → F
  sqrtFn : F → F

/-- `extend_hierarchy()` (smoothed_aggregation.inl:245-314) acting on the
last level `(A, B)`: strength of connection, spectral-radius estimate,
aggregation, tentative-prolongator fit, prolongator smoothing with
`ω = 4/3`, `R = transpose(P)`, Galerkin product `RAP = R·(A·P)`, Jacobi
weight `(4/3)/ρ`; returns the completed last level and the new coarser
level (fresh zero scratch sized to the coarse operator). -/
def extend_hierarchy {F : Type} [LinearOrderedField F] (oc : Oracles F) (theta : F)
    (lv : Level F) : Level F × Level F :=
  let A := lv.A
  let B := lv.B
  let C := oc.strength A theta
  let rho_DinvA := oc.rho A
  let aggregates := oc.aggregation C
  let TBc := fit_candidates oc.sqrtFn aggregates B
  let T := TBc.1
  let B_coarse := TBc.2
  let P := smooth_prolongator A T (4 / 3) rho_DinvA rho_DinvA
  let R := transpose P
  let AP := cooMul A P
  let RAP := cooMul R AP
  let omega := (4 / 3 : F) / rho_DinvA
  ({ lv with
      aggregates := aggregates
      R := R
      P := P
      residual := List.replicate A.num_rows 0
      omega := omega },
   { A := RAP
     B := B_coarse
     R := ⟨0, 0, []⟩
     P := ⟨0, 0, []⟩
     aggregates := []
     x := List.replicate RAP.num_rows 0
     b := List.replicate RAP.num_rows 0
     residual := []
     omega := 0 })

/-- The construction loop
`while (levels.back().A.num_rows > 100) extend_hierarchy();`
(smoothed_aggregation.inl:237-238), with explicit fuel standing for the
unbounded iteration: `none` means the loop did not terminate within `fuel`
steps. -/
def coarsenLoop {F : Type} [LinearOrderedField F] (oc : Oracles F) (theta : F) :
    ℕ → Level F → Option (List (Level F))
  | 0, lv => if lv.A.num_rows ≤ 100 then some [lv] else none
  | fuel + 1, lv =>
      if lv.A.num_rows ≤ 100 then some [lv]
      else
        (coarsenLoop oc theta fuel (extend_hierarchy oc theta lv).2).map
          fun rest => (extend_hierarchy oc theta lv).1 :: rest

/-- The constructor `smoothed_aggregation(A, theta)`
(smoothed_aggregation.inl:225-243): level 0 holds a copy of `A` and the
candidate vector `B` resized to `A.num_rows` with fill value `1.0`, then the
coarsening loop runs; the terminal dense LU factorization is the external
`lu_solver` and is modelled separately as the coarse-solve function of the
V-cycle. -/
def smoothed_aggregation {F : Type} [LinearOrderedField F] (oc : Oracles F) (A : Coo F)
    (theta : F) (fuel : ℕ) : Option (List (Level F)) :=
  coarsenLoop oc theta fuel
    { A := A, B := List.replicate A.num_rows 1, R := ⟨0, 0, []⟩, P := ⟨0, 0, []⟩,
      aggregates := [], x := [], b := [], residual := [], omega := 0 }

/-- `operator_complexity()` (smoothed_aggregation.inl:457-467): the sum of
the stored entry counts of `A` over all levels divided by the entry count of
the level-0 `A` (computed in exact arithmetic rather than `double`). -/
def operator_complexity {F : Type} [Zero F] (levels : List (Level F)) : ℚ :=
  (((levels.map fun lv => lv.A.entries.length).sum : ℕ) : ℚ)
    / (((levels.headD emptyLevel).A.entries.length : ℕ) : ℚ)

/-- `grid_complexity()` (smoothed_aggregation.inl:469-478): the sum of the
row counts of `A` over all levels divided by the row count of the level-0
`A`. -/
def grid_complexity {F : Type} [Zero F] (levels : List (Level F)) : ℚ :=
  (((levels.map fun lv => lv.A.num_rows).sum : ℕ) : ℚ)
    / (((levels.headD emptyLevel).A.num_rows : ℕ) : ℚ)

theorem coarsenLoop_head {F : Type} [LinearOrderedField F] (oc : Oracles F) (theta : F) :
    ∀ (fuel : ℕ) (lv : Level F) (ls : List (Level F)),
      coarsenLoop oc theta fuel lv = some ls →
      ls ≠ [] ∧ (ls.headD emptyLevel).A = lv.A ∧ (ls.headD emptyLevel).B = lv.B := by
  intro fuel lv ls h
  cases fuel with
  | zero =>
      rw [coarsenLoop] at h
      by_cases hc : lv.A.num_rows ≤ 100
      · rw [if_pos hc] at h
        obtain rfl := (Option.some.inj h).symm
        exact ⟨by simp, rfl, rfl⟩
      · rw [if_neg hc] at h
        exact absurd h (by simp)
  | succ f =>
      rw [coarsenLoop] at h
      by_cases hc : lv.A.num_rows ≤ 100
      · rw [if_pos hc] at h
        obtain rfl := (Option.some.inj h).symm
        exact ⟨by simp, rfl, rfl⟩
      · rw [if_neg hc] at h
        rcases Option.map_eq_some'.mp h with ⟨rest, _, rfl⟩
        exact ⟨by simp, rfl, rfl⟩

theorem coarsenLoop_shrinks {F : Type} [LinearOrderedField F] (oc : Oracles F) (theta : F)
    (hshrink : ∀ M : Coo F, 100 < M.num_rows →
        (listMax (oc.aggregation (oc.strength M theta)) + 1).toNat < M.num_rows) :
    ∀ (fuel : ℕ) (lv : Level F), lv.A.num_rows ≤ fuel + 100 →
      ∃ ls, coarsenLoop oc theta fuel lv = some ls
        ∧ ls ≠ []
        ∧ (ls.getLastD emptyLevel).A.num_rows ≤ 100
        ∧ (∀ i : ℕ, i + 1 < ls.length → 100 < (ls.getD i emptyLevel).A.num_rows)
        ∧ (∀ i : ℕ, i + 1 < ls.length →
            (ls.getD (i + 1) emptyLevel).A.num_rows < (ls.getD i emptyLevel).A.num_rows) := by
  intro fuel
  induction fuel with
  | zero =>
      intro lv hle
      have hc : lv.A.num_rows ≤ 100 := by omega
      refine ⟨[lv], by rw [coarsenLoop, if_pos hc], by simp, by simpa using hc, ?_, ?_⟩
      · intro i hi; simp at hi
      · intro i hi; simp at hi
  | succ f ih =>
      intro lv hle
      by_cases hc : lv.A.num_rows ≤ 100
      · refine ⟨[lv], by rw [coarsenLoop, if_pos hc], by simp, by simpa using hc, ?_, ?_⟩
        · intro i hi; simp at hi
        · intro i hi; simp at hi
      · have hnew : (extend_hierarchy oc theta lv).2.A.num_rows
            = (listMax (oc.aggregation (oc.strength lv.A theta)) + 1).toNat := rfl
        have hlt : (extend_hierarchy oc theta lv).2.A.num_rows < lv.A.num_rows := by
          rw [hnew]; exact hshrink lv.A (by omega)
        obtain ⟨rest, hrest, hne, hlast, hbig, hdec⟩ :=
          ih (extend_hierarchy oc theta lv).2 (by omega)
        have hheadA : (rest.headD emptyLevel).A = (extend_hierarchy oc theta lv).2.A :=
          (coarsenLoop_head oc theta f _ rest hrest).2.1
        refine ⟨(extend_hierarchy oc theta lv).1 :: rest, ?_, by simp, ?_, ?_, ?_⟩
        · rw [coarsenLoop, if_neg hc, hrest]
          rfl
        · cases rest with
          | nil => exact absurd rfl hne
          | cons r t =>
              rw [List.getLastD_cons, List.getLastD_cons]
              rw [List.getLastD_cons] at hlast
              exact hlast
        · intro i hi
          cases i with
          | zero =>
              show 100 < ((extend_hierarchy oc theta lv).1).A.num_rows
              have hA1 : ((extend_hierarchy oc theta lv).1).A = lv.A := rfl
              rw [hA1]
              omega
          | succ j =>
              have hj : j + 1 < rest.length := by
                have := hi
                simp only [List.length_cons] at this
                omega
              exact hbig j hj
        · intro i hi
          cases i with
          | zero =>
              show (rest.getD 0 emptyLevel).A.num_rows
                  < ((extend_hierarchy oc theta lv).1).A.num_rows
              have hA1 : ((extend_hierarchy oc theta lv).1).A = lv.A := rfl
              have hget0 : rest.getD 0 emptyLevel = rest.headD emptyLevel := by
                cases rest with
                | nil => rfl
                | cons r t => rfl
              rw [hA1, hget0, hheadA]
              exact hlt
          | succ j =>
              have hj : j + 1 < rest.length := by
                have := hi
                simp only [List.length_cons] at this
                omega
              exact hdec j hj

/-- C6: hierarchy construction coarsens exactly while the current coarsest
operator has more than 100 rows: with `A.num_rows` fuel the loop terminates
(returns `some`), the last level's `A` has at most 100 rows, every earlier
level's `A` has more than 100 rows, and the row counts strictly decrease from
level to level.  The hypothesis `hshrink` is the spec-modelled contract of
the external aggregation on the strength graph of a connected matrix with
nontrivial off-diagonal structure: on every operator still above the
threshold it produces strictly fewer aggregates than rows. -/
theorem claim_C6_construction_terminates {F : Type} [LinearOrderedField F]
    (oc : Oracles F) (A : Coo F) (theta : F)
    (hshrink : ∀ M : Coo F, 100 < M.num_rows →
        (listMax (oc.aggregation (oc.strength M theta)) + 1).toNat < M.num_rows) :
    (smoothed_aggregation oc A theta A.num_rows).isSome = true
    ∧ (smoothed_aggregation oc A theta A.num_rows).getD [] ≠ []
    ∧ (((smoothed_aggregation oc A theta A.num_rows).getD []).getLastD
        emptyLevel).A.num_rows ≤ 100
    ∧ (∀ i : ℕ, i + 1 < ((smoothed_aggregation oc A theta A.num_rows).getD []).length →
        100 < (((smoothed_aggregation oc A theta A.num_rows).getD []).getD i
          emptyLevel).A.num_rows)
    ∧ (∀ i : ℕ, i + 1 < ((smoothed_aggregation oc A theta A.num_rows).getD []).length →
        (((smoothed_aggregation oc A theta A.num_rows).getD []).getD (i + 1)
            emptyLevel).A.num_rows
          < (((smoothed_aggregation oc A theta A.num_rows).getD []).getD i
              emptyLevel).A.num_rows) := by
  obtain ⟨ls, hls, h1, h2, h3, h4⟩ :=
    coarsenLoop_shrinks oc theta hshrink A.num_rows
      { A := A, B := List.replicate A.num_rows 1, R := ⟨0, 0, []⟩, P := ⟨0, 0, []⟩,
        aggregates := [], x := [], b := [], residual := [], omega := 0 }
      (by simp)
  unfold smoothed_aggregation
  rw [hls]
  simp only [Option.getD_some]
  exact ⟨rfl, h1, h2, h3, h4⟩

theorem listMax_replicate_zero (n : ℕ) : listMax (List.replicate n (0 : ℤ)) = 0 := by
  have hfold : ∀ m : ℕ, (List.replicate m (0 : ℤ)).foldl max 0 = 0 := by
    intro m
    induction m with
    | zero => rfl
    | succ k ihk => simpa [List.replicate_succ] using ihk
  unfold listMax
  cases n with
  | zero => rfl
  | succ k =>
      rw [List.replicate_succ]
      show (((0 : ℤ) :: List.replicate k 0).foldl max (((0 : ℤ) :: List.replicate k 0).headD 0)) = 0
      simpa using hfold k

/-- Witness for C6 with the trivial strength oracle and the all-to-one
aggregation, on a small concrete matrix. -/
theorem claim_C6_witness :
    ((smoothed_aggregation
        ⟨fun M _ => M, fun M => List.replicate M.num_rows 0, fun _ => 1, id⟩
        (⟨2, 2, [(0, 0, (2 : ℚ))]⟩ : Coo ℚ) 0 2).isSome = true)
    ∧ (smoothed_aggregation
        ⟨fun M _ => M, fun M => List.replicate M.num_rows 0, fun _ => 1, id⟩
        (⟨2, 2, [(0, 0, (2 : ℚ))]⟩ : Coo ℚ) 0 2).getD [] ≠ []
    ∧ (((smoothed_aggregation
        ⟨fun M _ => M, fun M => List.replicate M.num_rows 0, fun _ => 1, id⟩
        (⟨2, 2, [(0, 0, (2 : ℚ))]⟩ : Coo ℚ) 0 2).getD []).getLastD
          emptyLevel).A.num_rows ≤ 100 := by
  have h := claim_C6_construction_terminates
    (⟨fun M _ => M, fun M => List.replicate M.num_rows 0, fun _ => 1, id⟩ : Oracles ℚ)
    (⟨2, 2, [(0, 0, (2 : ℚ))]⟩ : Coo ℚ) 0
    (by
      intro M hM
      show (listMax (List.replicate M.num_rows 0) + 1).toNat < M.num_rows
      rw [listMax_replicate_zero]
      omega)
  exact ⟨h.1, h.2.1, h.2.2.1⟩

/-- C10: at construction the level-0 candidate vector `B` is the all-ones
vector of length `A.num_rows` (`levels.back().B.resize(A.num_rows, 1.0f)`);
the constructor takes only `(A, theta)`, so no caller-supplied candidate
exists, and the level-0 tentative prolongator is fitted from this vector. -/
theorem claim_C10_initial_candidate {F : Type} [LinearOrderedField F] (oc : Oracles F)
    (A : Coo F) (theta : F) (fuel : ℕ)
    (h : (smoothed_aggregation oc A theta fuel).isSome = true) :
    (((smoothed_aggregation oc A theta fuel).getD []).headD emptyLevel).B
      = List.replicate A.num_rows 1 := by
  unfold smoothed_aggregation at *
  obtain ⟨ls, hls⟩ := Option.isSome_iff_exists.mp h
  rw [hls]
  simp only [Option.getD_some]
  exact (coarsenLoop_head oc theta fuel _ ls hls).2.2

/-- Witness for C10 at a concrete small matrix. -/
theorem claim_C10_witness :
    (((smoothed_aggregation
        ⟨fun M _ => M, fun M => List.replicate M.num_rows 0, fun _ => 1, id⟩
        (⟨2, 2, [(0, 0, (2 : ℚ)), (1, 1, 3)]⟩ : Coo ℚ) 0 5).getD []).headD emptyLevel).B
      = List.replicate 2 1 :=
  claim_C10_initial_candidate
    (⟨fun M _ => M, fun M => List.replicate M.num_rows 0, fun _ => 1, id⟩ : Oracles ℚ)
    (⟨2, 2, [(0, 0, (2 : ℚ)), (1, 1, 3)]⟩ : Coo ℚ) 0 5 (by decide)

theorem fit_T_len {F : Type} [LinearOrderedField F] (sqrtFn : F → F)
    (aggregates : List ℤ) (B : List F) :
    (fit_candidates sqrtFn aggregates B).1.entries.length = aggregates.length := by
  rw [fit_candidates_fst]
  show ((tentEntries aggregates B).map _).length = _
  rw [List.length_map]
  unfold tentEntries
  rw [List.length_map, List.length_range]

theorem fit_T_wf {F : Type} [LinearOrderedField F] (sqrtFn : F → F)
    (aggregates : List ℤ) (B : List F)
    (hpos : ∀ a ∈ aggregates, 0 ≤ a) :
    (fit_candidates sqrtFn aggregates B).1.Wf := by
  intro e he
  rw [fit_candidates_fst] at he
  rcases List.mem_map.mp he with ⟨q, hq, rfl⟩
  rcases List.mem_map.mp hq with ⟨i, hi, rfl⟩
  have hmem : aggregates.getD i 0 ∈ aggregates :=
    mem_iff_getD.mpr ⟨i, List.mem_range.mp hi, rfl⟩
  have h0 : 0 ≤ aggregates.getD i 0 := hpos _ hmem
  have hle : aggregates.getD i 0 ≤ listMax aggregates := le_listMax hmem
  have hi2 : (i : ℤ) < (aggregates.length : ℤ) := by
    exact_mod_cast List.mem_range.mp hi
  show WfKey ((i : ℤ), aggregates.getD i 0) aggregates.length (listMax aggregates + 1).toNat
  unfold WfKey
  refine ⟨Int.natCast_nonneg i, hi2, h0, ?_⟩
  show aggregates.getD i 0 < (((listMax aggregates + 1).toNat : ℕ) : ℤ)
  omega

theorem smooth_prolongator_wf {F : Type} [LinearOrderedField F] {S T : Coo F}
    (omega rho rhoE : F) (hS : S.Wf) (hT : T.Wf)
    (hTlen : T.entries.length = T.num_rows) (hST : S.num_cols = T.num_rows)
    (hTS : T.num_rows = S.num_rows) :
    (smooth_prolongator S T omega rho rhoE).Wf := by
  intro g hg
  have hsub := sortReduce_keys_subset _ g hg
  rcases List.mem_map.mp hsub with ⟨e, he, hk⟩
  rcases List.mem_append.mp he with he2 | he2
  · rcases List.mem_map.mp he2 with ⟨f, hf, rfl⟩
    rw [← hk]
    have hwS := hS f hf
    have hfr : 0 ≤ f.1 ∧ f.1 < (S.num_rows : ℤ) := ⟨hwS.1, hwS.2.1⟩
    have hfc : 0 ≤ f.2.1 ∧ f.2.1 < (S.num_cols : ℤ) := hwS.2.2
    have hidx : f.2.1.toNat < T.entries.length := by
      rw [hTlen, ← hST]
      omega
    have hcolv : (T.entries.map fun e => e.2.1).getD f.2.1.toNat 0
        = (T.entries.get ⟨f.2.1.toNat, hidx⟩).2.1 :=
      getD_map_lt (fun e => e.2.1) T.entries f.2.1.toNat hidx 0
    have hwT := hT (T.entries.get ⟨f.2.1.toNat, hidx⟩) (T.entries.get_mem _ _)
    have hTc : 0 ≤ (T.entries.get ⟨f.2.1.toNat, hidx⟩).2.1
        ∧ (T.entries.get ⟨f.2.1.toNat, hidx⟩).2.1 < (T.num_cols : ℤ) := hwT.2.2
    show WfKey (f.1, (T.entries.map fun e => e.2.1).getD f.2.1.toNat 0)
      S.num_rows T.num_cols
    unfold WfKey
    refine ⟨hfr.1, hfr.2, ?_, ?_⟩
    · show (0 : ℤ) ≤ (T.entries.map fun e => e.2.1).getD f.2.1.toNat 0
      rw [hcolv]
      exact hTc.1
    · show (T.entries.map fun e => e.2.1).getD f.2.1.toNat 0 < (T.num_cols : ℤ)
      rw [hcolv]
      exact hTc.2
  · rw [← hk]
    have hwT := hT e he2
    have h1 : 0 ≤ e.1 ∧ e.1 < (T.num_rows : ℤ) := ⟨hwT.1, hwT.2.1⟩
    have h2 : 0 ≤ e.2.1 ∧ e.2.1 < (T.num_cols : ℤ) := hwT.2.2
    show WfKey (entryKey e) S.num_rows T.num_cols
    exact ⟨h1.1, hTS ▸ h1.2, h2.1, h2.2⟩

theorem galerkin_eval {F : Type} [LinearOrderedField F] (A P : Coo F)
    (hA : A.Wf) (hP : P.Wf) (hPr : P.num_rows = A.num_rows)
    (hsq : A.num_cols = A.num_rows) (r c : ℤ) :
    (cooMul (transpose P) (cooMul A P)).eval r c
      = ∑ j ∈ Finset.Ico (0 : ℤ) (A.num_rows : ℤ),
          P.eval j r * ∑ k ∈ Finset.Ico (0 : ℤ) (A.num_rows : ℤ),
            A.eval j k * P.eval k c := by
  rw [cooMul_eval (transpose P) (cooMul A P) (transpose_wf hP) r c]
  have hrange : (transpose P).num_cols = A.num_rows := hPr
  rw [hrange]
  refine Finset.sum_congr rfl ?_
  intro j _
  rw [transpose_eval, cooMul_eval A P hA j c, hsq]

theorem extend_props {F : Type} [LinearOrderedField F] (oc : Oracles F) (theta : F)
    (lv : Level F) (hA : lv.A.Wf) (hsq : lv.A.num_cols = lv.A.num_rows)
    (hlen : (oc.aggregation (oc.strength lv.A theta)).length = lv.A.num_rows)
    (hpos : ∀ a ∈ oc.aggregation (oc.strength lv.A theta), 0 ≤ a) :
    (extend_hierarchy oc theta lv).1.R = transpose (extend_hierarchy oc theta lv).1.P
    ∧ (extend_hierarchy oc theta lv).1.A = lv.A
    ∧ (extend_hierarchy oc theta lv).2.A.Wf
    ∧ (extend_hierarchy oc theta lv).2.A.num_cols
        = (extend_hierarchy oc theta lv).2.A.num_rows
    ∧ ∀ r c : ℤ, (extend_hierarchy oc theta lv).2.A.eval r c
        = ∑ j ∈ Finset.Ico (0 : ℤ) (lv.A.num_rows : ℤ),
            (extend_hierarchy oc theta lv).1.P.eval j r
              * ∑ k ∈ Finset.Ico (0 : ℤ) (lv.A.num_rows : ℤ),
                  lv.A.eval j k * (extend_hierarchy oc theta lv).1.P.eval k c := by
  have hT : (fit_candidates oc.sqrtFn (oc.aggregation (oc.strength lv.A theta)) lv.B).1.Wf :=
    fit_T_wf oc.sqrtFn _ lv.B hpos
  have hTlen : (fit_candidates oc.sqrtFn (oc.aggregation (oc.strength lv.A theta))
        lv.B).1.entries.length
      = (fit_candidates oc.sqrtFn (oc.aggregation (oc.strength lv.A theta)) lv.B).1.num_rows :=
    fit_T_len oc.sqrtFn _ lv.B
  have hST : lv.A.num_cols
      = (fit_candidates oc.sqrtFn (oc.aggregation (oc.strength lv.A theta)) lv.B).1.num_rows := by
    show lv.A.num_cols = (oc.aggregation (oc.strength lv.A theta)).length
    rw [hsq, hlen]
  have hTS : (fit_candidates oc.sqrtFn (oc.aggregation (oc.strength lv.A theta)) lv.B).1.num_rows
      = lv.A.num_rows := hlen
  have hP : (smooth_prolongator lv.A
      (fit_candidates oc.sqrtFn (oc.aggregation (oc.strength lv.A theta)) lv.B).1
      (4 / 3) (oc.rho lv.A) (oc.rho lv.A)).Wf :=
    smooth_prolongator_wf (4 / 3) (oc.rho lv.A) (oc.rho lv.A) hA hT hTlen hST hTS
  refine ⟨rfl, rfl, ?_, rfl, ?_⟩
  · exact cooMul_wf (transpose_wf hP) (cooMul_wf hA hP)
  · intro r c
    exact galerkin_eval lv.A _ hA hP rfl hsq r c

theorem coarsenLoop_galerkin {F : Type} [LinearOrderedField F] (oc : Oracles F) (theta : F)
    (hlen : ∀ M : Coo F, (oc.aggregation (oc.strength M theta)).length = M.num_rows)
    (hpos : ∀ (M : Coo F), ∀ a ∈ oc.aggregation (oc.strength M theta), 0 ≤ a) :
    ∀ (fuel : ℕ) (lv : Level F) (ls : List (Level F)),
      coarsenLoop oc theta fuel lv = some ls →
      lv.A.Wf → lv.A.num_cols = lv.A.num_rows →
      ∀ i : ℕ, i + 1 < ls.length →
        (ls.getD i emptyLevel).R = transpose (ls.getD i emptyLevel).P
        ∧ ∀ r c : ℤ, (ls.getD (i + 1) emptyLevel).A.eval r c
            = ∑ j ∈ Finset.Ico (0 : ℤ) ((ls.getD i emptyLevel).A.num_rows : ℤ),
                (ls.getD i emptyLevel).P.eval j r
                  * ∑ k ∈ Finset.Ico (0 : ℤ) ((ls.getD i emptyLevel).A.num_rows : ℤ),
                      (ls.getD i emptyLevel).A.eval j k
                        * (ls.getD i emptyLevel).P.eval k c := by
  intro fuel
  induction fuel with
  | zero =>
      intro lv ls h hA hsq i hi
      rw [coarsenLoop] at h
      by_cases hc : lv.A.num_rows ≤ 100
      · rw [if_pos hc] at h
        obtain rfl := (Option.some.inj h).symm
        simp at hi
      · rw [if_neg hc] at h
        exact absurd h (by simp)
  | succ f ih =>
      intro lv ls h hA hsq i hi
      rw [coarsenLoop] at h
      by_cases hc : lv.A.num_rows ≤ 100
      · rw [if_pos hc] at h
        obtain rfl := (Option.some.inj h).symm
        simp at hi
      · rw [if_neg hc] at h
        rcases Option.map_eq_some'.mp h with ⟨rest, hrec, rfl⟩
        obtain ⟨hR1, hA1, hWf2, hsq2, hgal⟩ :=
          extend_props oc theta lv hA hsq (hlen lv.A) (hpos lv.A)
        cases i with
        | zero =>
            refine ⟨?_, ?_⟩
            · simp only [List.getD_cons_zero]
              exact hR1
            · intro r c
              simp only [List.getD_cons_succ, List.getD_cons_zero]
              have hne := (coarsenLoop_head oc theta f _ rest hrec).1
              have hhead := (coarsenLoop_head oc theta f _ rest hrec).2.1
              have hget0 : rest.getD 0 emptyLevel = rest.headD emptyLevel := by
                cases rest with
                | nil => exact absurd rfl hne
                | cons a t => rfl
              rw [hget0, hhead, hA1]
              exact hgal r c
        | succ j =>
            have hj : j + 1 < rest.length := by
              simp only [List.length_cons] at hi
              omega
            have hrest := ih (extend_hierarchy oc theta lv).2 rest hrec hWf2 hsq2 j hj
            simp only [List.getD_cons_succ]
            exact hrest

/-- C1: for every hierarchy built by the constructor (under the spec-modelled
contracts of the external strength/aggregation collaborators: one nonnegative
aggregate id per row of the operator) and every non-terminal level `i`, the
stored restriction `R_i` is the exact transpose of the stored prolongation
`P_i`, and the next level's operator — computed by the code as `R_i·(A_i·P_i)`
— equals the Galerkin triple product `transpose(P_i)·A_i·P_i` entrywise:
`A_{i+1}[r,c] = Σ_j P_i[j,r] · Σ_k A_i[j,k] · P_i[k,c]`. -/
theorem claim_C1_galerkin {F : Type} [LinearOrderedField F] (oc : Oracles F) (A : Coo F)
    (theta : F) (fuel : ℕ) (ls : List (Level F))
    (hA : A.Wf) (hsq : A.num_cols = A.num_rows)
    (hlen : ∀ M : Coo F, (oc.aggregation (oc.strength M theta)).length = M.num_rows)
    (hpos : ∀ (M : Coo F), ∀ a ∈ oc.aggregation (oc.strength M theta), 0 ≤ a)
    (hbuild : smoothed_aggregation oc A theta fuel = some ls) :
    ∀ i : ℕ, i + 1 < ls.length →
      (ls.getD i emptyLevel).R = transpose (ls.getD i emptyLevel).P
      ∧ ∀ r c : ℤ, (ls.getD (i + 1) emptyLevel).A.eval r c
          = ∑ j ∈ Finset.Ico (0 : ℤ) ((ls.getD i emptyLevel).A.num_rows : ℤ),
              (ls.getD i emptyLevel).P.eval j r
                * ∑ k ∈ Finset.Ico (0 : ℤ) ((ls.getD i emptyLevel).A.num_rows : ℤ),
                    (ls.getD i emptyLevel).A.eval j k
                      * (ls.getD i emptyLevel).P.eval k c := by
  intro i hi
  unfold smoothed_aggregation at hbuild
  exact coarsenLoop_galerkin oc theta hlen hpos fuel _ ls hbuild hA hsq i hi

set_option maxRecDepth 8192 in
/-- Witness for C1: the 101-row matrix with a single diagonal entry, the
trivial strength oracle and the all-to-one aggregation; the built hierarchy
has two levels and the level-0 pair satisfies both parts of the claim. -/
theorem claim_C1_witness :
    (((smoothed_aggregation
          ⟨fun M _ => M, fun M => List.replicate M.num_rows 0, fun _ => 1, id⟩
          (⟨101, 101, [(0, 0, (1 : ℚ))]⟩ : Coo ℚ) 0 2).getD []).getD 0 emptyLevel).R
        = transpose (((smoothed_aggregation
            ⟨fun M _ => M, fun M => List.replicate M.num_rows 0, fun _ => 1, id⟩
            (⟨101, 101, [(0, 0, (1 : ℚ))]⟩ : Coo ℚ) 0 2).getD []).getD 0 emptyLevel).P
    ∧ (((smoothed_aggregation
          ⟨fun M _ => M, fun M => List.replicate M.num_rows 0, fun _ => 1, id⟩
          (⟨101, 101, [(0, 0, (1 : ℚ))]⟩ : Coo ℚ) 0 2).getD []).getD (0 + 1)
            emptyLevel).A.eval 0 0
        = ∑ j ∈ Finset.Ico (0 : ℤ)
            (((((smoothed_aggregation
                ⟨fun M _ => M, fun M => List.replicate M.num_rows 0, fun _ => 1, id⟩
                (⟨101, 101, [(0, 0, (1 : ℚ))]⟩ : Coo ℚ) 0 2).getD []).getD 0
                  emptyLevel).A.num_rows : ℤ)),
            (((smoothed_aggregation
                ⟨fun M _ => M, fun M => List.replicate M.num_rows 0, fun _ => 1, id⟩
                (⟨101, 101, [(0, 0, (1 : ℚ))]⟩ : Coo ℚ) 0 2).getD []).getD 0
                  emptyLevel).P.eval j 0
              * ∑ k ∈ Finset.Ico (0 : ℤ)
                  (((((smoothed_aggregation
                      ⟨fun M _ => M, fun M => List.replicate M.num_rows 0, fun _ => 1, id⟩
                      (⟨101, 101, [(0, 0, (1 : ℚ))]⟩ : Coo ℚ) 0 2).getD []).getD 0
                        emptyLevel).A.num_rows : ℤ)),
                  (((smoothed_aggregation
                      ⟨fun M _ => M, fun M => List.replicate M.num_rows 0, fun _ => 1, id⟩
                      (⟨101, 101, [(0, 0, (1 : ℚ))]⟩ : Coo ℚ) 0 2).getD []).getD 0
                        emptyLevel).A.eval j k
                    * (((smoothed_aggregation
                        ⟨fun M _ => M, fun M => List.replicate M.num_rows 0, fun _ => 1, id⟩
                        (⟨101, 101, [(0, 0, (1 : ℚ))]⟩ : Coo ℚ) 0 2).getD []).getD 0
                          emptyLevel).P.eval k 0 := by
  have hsome : (smoothed_aggregation
      ⟨fun M _ => M, fun M => List.replicate M.num_rows 0, fun _ => 1, id⟩
      (⟨101, 101, [(0, 0, (1 : ℚ))]⟩ : Coo ℚ) 0 2).isSome = true := by decide
  have hbuild : smoothed_aggregation
      ⟨fun M _ => M, fun M => List.replicate M.num_rows 0, fun _ => 1, id⟩
      (⟨101, 101, [(0, 0, (1 : ℚ))]⟩ : Coo ℚ) 0 2
      = some ((smoothed_aggregation
          ⟨fun M _ => M, fun M => List.replicate M.num_rows 0, fun _ => 1, id⟩
          (⟨101, 101, [(0, 0, (1 : ℚ))]⟩ : Coo ℚ) 0 2).getD []) := by
    cases hm : smoothed_aggregation
        ⟨fun M _ => M, fun M => List.replicate M.num_rows 0, fun _ => 1, id⟩
        (⟨101, 101, [(0, 0, (1 : ℚ))]⟩ : Coo ℚ) 0 2 with
    | none =>
        rw [hm] at hsome
        exact absurd hsome (by simp)
    | some ls =>
        rfl
  have h := claim_C1_galerkin
    (⟨fun M _ => M, fun M => List.replicate M.num_rows 0, fun _ => 1, id⟩ : Oracles ℚ)
    (⟨101, 101, [(0, 0, (1 : ℚ))]⟩ : Coo ℚ) 0 2
    ((smoothed_aggregation
        ⟨fun M _ => M, fun M => List.replicate M.num_rows 0, fun _ => 1, id⟩
        (⟨101, 101, [(0, 0, (1 : ℚ))]⟩ : Coo ℚ) 0 2).getD [])
    (by decide) rfl (fun M => by simp)
    (fun M a ha => le_of_eq (List.eq_of_mem_replicate ha).symm) hbuild
    0 (by decide)
  exact ⟨h.1, h.2 0 0⟩

/-- C9: `operator_complexity()` is the sum over all levels of the stored
entry count of `A` divided by the level-0 entry count, `grid_complexity()`
the analogous ratio of row counts; when the hierarchy is nonempty and the
level-0 counts are positive both ratios are at least 1.  Both functions
only read the level list (in the embedding they are pure functions of it),
matching the claim that the calls leave the hierarchy unchanged. -/
theorem claim_C9_complexities {F : Type} [Zero F] (levels : List (Level F))
    (hne : levels ≠ [])
    (hpe : 0 < (levels.headD emptyLevel).A.entries.length)
    (hpr : 0 < (levels.headD emptyLevel).A.num_rows) :
    operator_complexity levels
      = (((levels.map fun lv => lv.A.entries.length).sum : ℕ) : ℚ)
          / (((levels.headD emptyLevel).A.entries.length : ℕ) : ℚ)
    ∧ grid_complexity levels
      = (((levels.map fun lv => lv.A.num_rows).sum : ℕ) : ℚ)
          / (((levels.headD emptyLevel).A.num_rows : ℕ) : ℚ)
    ∧ 1 ≤ operator_complexity levels
    ∧ 1 ≤ grid_complexity levels := by
  cases levels with
  | nil => exact absurd rfl hne
  | cons hd tl =>
      refine ⟨rfl, rfl, ?_, ?_⟩
      · unfold operator_complexity
        rw [one_le_div (by exact_mod_cast hpe)]
        have hle : hd.A.entries.length
            ≤ ((hd :: tl).map fun lv => lv.A.entries.length).sum := by
          rw [List.map_cons, List.sum_cons]
          exact Nat.le_add_right _ _
        exact_mod_cast hle
      · unfold grid_complexity
        rw [one_le_div (by exact_mod_cast hpr)]
        have hle : hd.A.num_rows
            ≤ ((hd :: tl).map fun lv => lv.A.num_rows).sum := by
          rw [List.map_cons, List.sum_cons]
          exact Nat.le_add_right _ _
        exact_mod_cast hle

/-- Witness for C9 on a concrete two-level list. -/
theorem claim_C9_witness :
    operator_complexity
        [{ emptyLevel with A := (⟨2, 2, [(0, 0, (1 : ℚ)), (1, 1, 1)]⟩ : Coo ℚ) },
         { emptyLevel with A := (⟨1, 1, [(0, 0, (1 : ℚ))]⟩ : Coo ℚ) }]
      = (((3 : ℕ) : ℚ)) / (((2 : ℕ) : ℚ))
    ∧ grid_complexity
        [{ emptyLevel with A := (⟨2, 2, [(0, 0, (1 : ℚ)), (1, 1, 1)]⟩ : Coo ℚ) },
         { emptyLevel with A := (⟨1, 1, [(0, 0, (1 : ℚ))]⟩ : Coo ℚ) }]
      = (((3 : ℕ) : ℚ)) / (((2 : ℕ) : ℚ))
    ∧ 1 ≤ operator_complexity
        [{ emptyLevel with A := (⟨2, 2, [(0, 0, (1 : ℚ)), (1, 1, 1)]⟩ : Coo ℚ) },
         { emptyLevel with A := (⟨1, 1, [(0, 0, (1 : ℚ))]⟩ : Coo ℚ) }]
    ∧ 1 ≤ grid_complexity
        [{ emptyLevel with A := (⟨2, 2, [(0, 0, (1 : ℚ)), (1, 1, 1)]⟩ : Coo ℚ) },
         { emptyLevel with A := (⟨1, 1, [(0, 0, (1 : ℚ))]⟩ : Coo ℚ) }] := by
  have h := claim_C9_complexities
    [{ emptyLevel with A := (⟨2, 2, [(0, 0, (1 : ℚ)), (1, 1, 1)]⟩ : Coo ℚ) },
     { emptyLevel with A := (⟨1, 1, [(0, 0, (1 : ℚ))]⟩ : Coo ℚ) }]
    (by simp) (by decide) (by decide)
  refine ⟨?_, ?_, h.2.2.1, h.2.2.2⟩
  · rw [h.1]
    rfl
  · rw [h.2.1]
    rfl

/-- C7: the code does not reject degenerate aggregation, contradicting the
spec.  `fit_candidates` carries unaggregated nodes (aggregate id `-1`, the
case marked TODO at smoothed_aggregation.inl:98) straight into the tentative
prolongator: with aggregates `[-1, 0]` the output holds an entry with column
index `-1` (an out-of-range scatter destination in the C code) and violates
the index invariant, and with every node unaggregated (`[-1, -1]`) it returns
normally a prolongator with zero columns instead of signalling a construction
failure; no error path exists in the function. -/
theorem claim_C7_degenerate_aggregation_accepted :
    ((fit_candidates (id : ℚ → ℚ) [-1, 0] [1, 1]).1.entries.map entryKey)
        = [(0, -1), (1, 0)]
    ∧ ¬ (fit_candidates (id : ℚ → ℚ) [-1, 0] [1, 1]).1.Wf
    ∧ (fit_candidates (id : ℚ → ℚ) [-1, -1] [1, 1]).1.num_cols = 0
    ∧ (fit_candidates (id : ℚ → ℚ) [-1, -1] [1, 1]).1.num_rows = 2 := by
  refine ⟨by decide, ?_, by decide, by decide⟩
  intro hwf
  have h := hwf ((fit_candidates (id : ℚ → ℚ) [-1, 0] [1, 1]).1.entries.get
    ⟨0, by decide⟩) (List.get_mem _ _ _)
  have hc : (entryKey ((fit_candidates (id : ℚ → ℚ) [-1, 0] [1, 1]).1.entries.get
      ⟨0, by decide⟩)).2 = -1 := by decide
  have h2 := h.2.2.1
  rw [hc] at h2
  exact absurd h2 (by decide)

/-- `Modelled from the spec:` the per-level relaxation smoother is an
external collaborator exposing `presmooth(A,b,x)` / `postsmooth(A,b,x)`
that return the new contents of `x`, and the terminal dense LU solver
(`lu_solver`) is an external direct solver `cs(b)`; all three are supplied
as oracle functions constrained only by their spec contracts, stated as
hypotheses of the theorems. -/
structure Smoothers (F : Type) where
  pre : Coo F → List F → List F → List F
  post : Coo F → List F → List F → List F
  cs : List F → List F

/-- `_solve(b, x, i)` (smoothed_aggregation.inl:377-430) acting on the level
suffix `levels[i:]`: at the terminal level (`i + 1 == levels.size()`) the
dense LU solve overwrites `x` with `cs b`; otherwise presmooth, residual
`b − A·x`, restriction `coarse_b = R·r`, recursive solve started on the
current scratch contents of the next level's `x` buffer, prolonged
correction `x += P·coarse_x`, postsmooth. -/
def vcycle {F : Type} [LinearOrderedField F] (sm : Smoothers F) :
    List (Level F) → List F → List F → List F
  | [], _, x => x
  | [_], b, _ => sm.cs b
  | lv :: next :: rest, b, x =>
      let x1 := sm.pre lv.A b x
      let r := vsub b (mulVec lv.A x1)
      let coarse_b := mulVec lv.R r
      let coarse_x := vcycle sm (next :: rest) coarse_b next.x
      let x2 := vadd x1 (mulVec lv.P coarse_x)
      sm.post lv.A b x2

/-- Equality of the persistent (immutable) parts of two levels, leaving the
per-solve scratch buffers `x`, `b`, `residual` unconstrained. -/
def ImmutEq {F : Type} (l1 l2 : Level F) : Prop :=
  l1.A = l2.A ∧ l1.B = l2.B ∧ l1.R = l2.R ∧ l1.P = l2.P
    ∧ l1.aggregates = l2.aggregates ∧ l1.omega = l2.omega

/-- `Modelled from the spec:` the convergence monitor — an iteration counter,
an iteration cap, and a convergence predicate on the residual;
`finished(residual)` is convergence or an exhausted budget, and `++monitor`
advances the counter. -/
structure Monitor (F : Type) where
  limit : ℕ
  count : ℕ
  converged : List F → Bool

def finished {F : Type} (m : Monitor F) (r : List F) : Bool :=
  m.converged r || decide (m.limit ≤ m.count)

/-- `Modelled from the spec:` `cusp::default_monitor(b)` — convergence when
the residual norm falls below `1e-5` times the norm of `b` (compared in
squared form, which avoids the square root), with an iteration cap of 500. -/
def defaultMonitor {F : Type} [LinearOrderedField F] (b : List F) : Monitor F :=
  { limit := 500, count := 0,
    converged := fun r =>
      decide ((r.map fun t => t * t).sum * 10000000000 ≤ (b.map fun t => t * t).sum) }

/-- The monitored stationary iteration of `solve`
(smoothed_aggregation.inl:361-374): while the monitor is not finished on the
current residual, apply one V-cycle to the residual (into a fresh
zero-initialized update buffer of length `A.num_rows`), accumulate
`x += update`, recompute the residual and advance the monitor. -/
def solveLoop {F : Type} [LinearOrderedField F] (sm : Smoothers F) (ls : List (Level F))
    (A : Coo F) (b : List F) (x residual : List F) (m : Monitor F) :
    List F × Monitor F :=
  if h : finished m residual = true then (x, m)
  else
    let update := vcycle sm ls residual (List.replicate A.num_rows 0)
    let x2 := vadd x update
    solveLoop sm ls A b x2 (vsub b (mulVec A x2))
      { m with count := m.count + 1 }
termination_by m.limit - m.count
decreasing_by
  show m.limit - (m.count + 1) < m.limit - m.count
  simp only [finished, Bool.or_eq_true, decide_eq_true_eq, not_or] at h
  omega

/-- `solve(b, x, monitor)` (smoothed_aggregation.inl:339-375): compute the
initial residual `b − A₀·x` and run the monitored stationary iteration. -/
def solve {F : Type} [LinearOrderedField F] (sm : Smoothers F) (ls : List (Level F))
    (b x : List F) (m : Monitor F) : List F × Monitor F :=
  solveLoop sm ls (ls.headD emptyLevel).A b x
    (vsub b (mulVec (ls.headD emptyLevel).A x)) m

/-- `solve(b, x)` (smoothed_aggregation.inl:327-335): the monitored solve
with a freshly constructed default monitor on `b`. -/
def solveDefault {F : Type} [LinearOrderedField F] (sm : Smoothers F)
    (ls : List (Level F)) (b x : List F) : List F × Monitor F :=
  solve sm ls b x (defaultMonitor b)

theorem solveLoop_exits_finished {F : Type} [LinearOrderedField F] (sm : Smoothers F)
    (ls : List (Level F)) (A : Coo F) (b : List F) :
    ∀ (n : ℕ) (m : Monitor F) (x residual : List F), m.limit - m.count ≤ n →
      residual = vsub b (mulVec A x) →
      finished (solveLoop sm ls A b x residual m).2
          (vsub b (mulVec A (solveLoop sm ls A b x residual m).1)) = true
      ∧ (solveLoop sm ls A b x residual m).2.limit = m.limit
      ∧ m.count ≤ (solveLoop sm ls A b x residual m).2.count := by
  intro n
  induction n with
  | zero =>
      intro m x residual hn hres
      have hfin : finished m residual = true := by
        unfold finished
        have : m.limit ≤ m.count := by omega
        simp [this]
      rw [solveLoop, dif_pos hfin]
      rw [hres] at hfin
      exact ⟨hfin, rfl, le_refl _⟩
  | succ k ih =>
      intro m x residual hn hres
      by_cases hfin : finished m residual = true
      · rw [solveLoop, dif_pos hfin]
        rw [hres] at hfin
        exact ⟨hfin, rfl, le_refl _⟩
      · rw [solveLoop, dif_neg hfin]
        have hcount : ¬ (m.limit ≤ m.count) := by
          intro hle
          exact hfin (by unfold finished; simp [hle])
        have hm : ({ m with count := m.count + 1 } : Monitor F).limit
            - ({ m with count := m.count + 1 } : Monitor F).count ≤ k := by
          show m.limit - (m.count + 1) ≤ k
          omega
        obtain ⟨h1, h2, h3⟩ := ih { m with count := m.count + 1 }
          (vadd x (vcycle sm ls residual (List.replicate A.num_rows 0)))
          (vsub b (mulVec A (vadd x (vcycle sm ls residual (List.replicate A.num_rows 0)))))
          hm rfl
        have h3x : m.count + 1 ≤ (solveLoop sm ls A b
            (vadd x (vcycle sm ls residual (List.replicate A.num_rows 0)))
            (vsub b (mulVec A (vadd x (vcycle sm ls residual (List.replicate A.num_rows 0)))))
            { m with count := m.count + 1 }).2.count := h3
        exact ⟨h1, h2, le_trans (Nat.le_succ m.count) h3x⟩

/-- C5: `solve(b, x, monitor)` is the stationary iteration of the claim: if
the monitor is finished on the initial residual `b − A₀·x` the iterate `x`
and the monitor are returned unchanged; otherwise one iteration applies a
V-cycle to the residual (from a fresh zero update buffer), accumulates
`x += update`, recomputes the residual and advances the monitor exactly
once, and the loop continues as `solve` from the new state.  `solve(b, x)`
without a monitor is the monitored solve under the spec-modelled default
monitor (relative-residual test, iteration cap 500).  The loop always
returns normally — on exit the returned monitor is finished on the residual
of the returned iterate (so budget exhaustion is reported only through the
monitor's final state), the cap is unchanged and the count never
decreases. -/
theorem claim_C5_solve {F : Type} [LinearOrderedField F] (sm : Smoothers F)
    (ls : List (Level F)) (b x : List F) (m : Monitor F) :
    (finished m (vsub b (mulVec (ls.headD emptyLevel).A x)) = true →
      solve sm ls b x m = (x, m))
    ∧ (finished m (vsub b (mulVec (ls.headD emptyLevel).A x)) = false →
      solve sm ls b x m
        = solve sm ls b
            (vadd x (vcycle sm ls (vsub b (mulVec (ls.headD emptyLevel).A x))
              (List.replicate (ls.headD emptyLevel).A.num_rows 0)))
            { m with count := m.count + 1 })
    ∧ solveDefault sm ls b x = solve sm ls b x (defaultMonitor b)
    ∧ (defaultMonitor b).limit = 500
    ∧ (defaultMonitor b).count = 0
    ∧ finished (solve sm ls b x m).2
        (vsub b (mulVec (ls.headD emptyLevel).A (solve sm ls b x m).1)) = true
    ∧ (solve sm ls b x m).2.limit = m.limit
    ∧ m.count ≤ (solve sm ls b x m).2.count := by
  obtain ⟨h1, h2, h3⟩ := solveLoop_exits_finished sm ls (ls.headD emptyLevel).A b
    (m.limit - m.count) m x (vsub b (mulVec (ls.headD emptyLevel).A x))
    (le_refl _) rfl
  refine ⟨?_, ?_, rfl, rfl, rfl, h1, h2, h3⟩
  · intro hfin
    unfold solve
    rw [solveLoop, dif_pos hfin]
  · intro hfin
    unfold solve
    rw [solveLoop, dif_neg (by rw [hfin]; simp)]

/-- C4: one recursive V-cycle step at a non-terminal level performs, in
order: presmooth `x` in place, residual `r = b − A·x`, restriction
`coarse_b = R·r`, recursive solve at the next level (started on the next
level's scratch `x` buffer), prolonged correction `x += P·coarse_x`,
postsmooth; at the terminal level the result is the stored direct solve
`cs b` — independent of the incoming iterate, hence not iterative — and
under the spec-modelled exactness contract of the dense LU factorization it
solves the terminal system exactly. -/
theorem claim_C4_vcycle_step {F : Type} [LinearOrderedField F] (sm : Smoothers F)
    (lv next lvT : Level F) (rest : List (Level F)) (b x bT xT : List F)
    (hb : bT.length = lvT.A.num_rows)
    (hLU : ∀ v : List F, v.length = lvT.A.num_rows → mulVec lvT.A (sm.cs v) = v) :
    (vcycle sm (lv :: next :: rest) b x
      = sm.post lv.A b (vadd (sm.pre lv.A b x)
          (mulVec lv.P (vcycle sm (next :: rest)
            (mulVec lv.R (vsub b (mulVec lv.A (sm.pre lv.A b x)))) next.x))))
    ∧ vcycle sm [lvT] bT xT = sm.cs bT
    ∧ mulVec lvT.A (vcycle sm [lvT] bT xT) = bT := by
  refine ⟨rfl, rfl, ?_⟩
  show mulVec lvT.A (sm.cs bT) = bT
  exact hLU bT hb

/-- Witness for C4 with identity smoothers, the identity direct solver and a
1×1 identity terminal operator. -/
theorem claim_C4_witness :
    (vcycle (⟨fun _ _ x => x, fun _ _ x => x, id⟩ : Smoothers ℚ)
        [emptyLevel, emptyLevel] [1] [1]
      = (⟨fun _ _ x => x, fun _ _ x => x, id⟩ : Smoothers ℚ).post emptyLevel.A [1]
          (vadd ((⟨fun _ _ x => x, fun _ _ x => x, id⟩ : Smoothers ℚ).pre
              emptyLevel.A [1] [1])
            (mulVec emptyLevel.P (vcycle
              (⟨fun _ _ x => x, fun _ _ x => x, id⟩ : Smoothers ℚ) [emptyLevel]
              (mulVec emptyLevel.R (vsub [1] (mulVec emptyLevel.A
                ((⟨fun _ _ x => x, fun _ _ x => x, id⟩ : Smoothers ℚ).pre
                  emptyLevel.A [1] [1]))))
              emptyLevel.x))))
    ∧ vcycle (⟨fun _ _ x => x, fun _ _ x => x, id⟩ : Smoothers ℚ)
        [{ emptyLevel with A := (⟨1, 1, [(0, 0, (1 : ℚ))]⟩ : Coo ℚ) }] [5] [2]
      = (⟨fun _ _ x => x, fun _ _ x => x, id⟩ : Smoothers ℚ).cs [5]
    ∧ mulVec ({ emptyLevel with A := (⟨1, 1, [(0, 0, (1 : ℚ))]⟩ : Coo ℚ)
          } : Level ℚ).A
        (vcycle (⟨fun _ _ x => x, fun _ _ x => x, id⟩ : Smoothers ℚ)
          [{ emptyLevel with A := (⟨1, 1, [(0, 0, (1 : ℚ))]⟩ : Coo ℚ) }] [5] [2])
      = [5] := by
  have h := claim_C4_vcycle_step (⟨fun _ _ x => x, fun _ _ x => x, id⟩ : Smoothers ℚ)
    emptyLevel emptyLevel
    ({ emptyLevel with A := (⟨1, 1, [(0, 0, (1 : ℚ))]⟩ : Coo ℚ) } : Level ℚ)
    [] [1] [1] [5] [2] rfl
    (by
      intro v hv
      have hv1 : v.length = 1 := hv
      rcases List.length_eq_one.mp hv1 with ⟨a, rfl⟩
      show mulVec (⟨1, 1, [(0, 0, (1 : ℚ))]⟩ : Coo ℚ) [a] = [a]
      simp [mulVec, List.range_succ])
  exact h

/-- C8: the per-level scratch buffers hold no state between calls — one
V-cycle from level 0 (`apply(b, x)`) computes the same output for any two
hierarchies that agree on the persistent data (`A`, `B`, `R`, `P`,
aggregates, smoother weight) but have arbitrary scratch `x`/`b`/`residual`
contents, and for any two initial contents of the output buffer `x`; the
hypothesis is the spec-modelled contract that the presmoother overwrites
`x` rather than accumulating into it. -/
theorem claim_C8_scratch_stateless {F : Type} [LinearOrderedField F] (sm : Smoothers F)
    (hpre : ∀ (A : Coo F) (b x x2 : List F), sm.pre A b x = sm.pre A b x2) :
    ∀ (ls1 ls2 : List (Level F)), List.Forall₂ ImmutEq ls1 ls2 → ls1 ≠ [] →
      ∀ (b x1 x2 : List F), vcycle sm ls1 b x1 = vcycle sm ls2 b x2 := by
  intro ls1 ls2 h
  induction h with
  | nil =>
      intro hne
      exact absurd rfl hne
  | @cons a1 a2 t1 t2 hlv htail ih =>
      intro _ b x1 x2
      cases htail with
      | nil => rfl
      | @cons n1 n2 r1 r2 hlv2 htail2 =>
          obtain ⟨hA, hB, hR, hP, hagg, hom⟩ := hlv
          have hx : sm.pre a1.A b x1 = sm.pre a2.A b x2 := by
            rw [hA]
            exact hpre a2.A b x1 x2
          show sm.post a1.A b (vadd (sm.pre a1.A b x1) (mulVec a1.P (vcycle sm (n1 :: r1)
              (mulVec a1.R (vsub b (mulVec a1.A (sm.pre a1.A b x1)))) n1.x)))
            = sm.post a2.A b (vadd (sm.pre a2.A b x2) (mulVec a2.P (vcycle sm (n2 :: r2)
              (mulVec a2.R (vsub b (mulVec a2.A (sm.pre a2.A b x2)))) n2.x)))
          rw [hx, hA, hR, hP]
          rw [ih (List.cons_ne_nil _ _)]

/-- Witness for C8: two 2-level hierarchies with identical persistent data
but different scratch residues, and different initial output buffers, give
the same V-cycle result. -/
theorem claim_C8_witness :
    vcycle (⟨fun _ b _ => b, fun _ _ x => x, id⟩ : Smoothers ℚ)
        [{ emptyLevel with x := [1] }, { emptyLevel with residual := [2] }] [4] [7]
      = vcycle (⟨fun _ b _ => b, fun _ _ x => x, id⟩ : Smoothers ℚ)
        [{ emptyLevel with b := [3] }, emptyLevel] [4] [8] :=
  claim_C8_scratch_stateless (⟨fun _ b _ => b, fun _ _ x => x, id⟩ : Smoothers ℚ)
    (fun _ _ _ _ => rfl)
    [{ emptyLevel with x := [1] }, { emptyLevel with residual := [2] }]
    [{ emptyLevel with b := [3] }, emptyLevel]
    (List.Forall₂.cons (by unfold ImmutEq; exact ⟨rfl, rfl, rfl, rfl, rfl, rfl⟩)
      (List.Forall₂.cons (by unfold ImmutEq; exact ⟨rfl, rfl, rfl, rfl, rfl, rfl⟩)
        List.Forall₂.nil))
    (by simp) [4] [7] [8]
